import Mathlib

/-!
Verification of the `httpd` toy HTTP/1.1 server core (packages `httpd` and the
multipart reader) against its natural-language specification.

The Go sources are embedded shallowly: byte streams are `List Char`, fallible
reads return `Except`/`Option`, and the mutable per-connection and per-request
state is passed explicitly.  Each definition mirrors one Go function and keeps
its name where Lean allows.  The `bufio.Reader` wrapping of a finite byte
source is modelled as the remaining byte list; where buffer-fill boundaries are
observable (the `io.LimitedReader` byte cap on the connection) buffering is
modelled explicitly.
-/

/-- Byte strings: Go `[]byte` / `string` values, as lists of characters. -/
abbrev Str := List Char

/-- Coerce a Lean string literal to the byte-string model. -/
def str (s : String) : Str := s.data

/-- Errors the embedded readers can produce, one constructor per distinct
Go error site (`io.EOF`, `io.ErrUnexpectedEOF`, chunk-encoding mismatch,
multipart delimiter mismatch and CRLF mismatch, `strconv`/`Sscanf`/URL
failures). -/
inductive RErr
  | eof
  | unexpectedEof
  | badChunk
  | wantDelimiter
  | badCrlf
  | badRequestLine
  | badURL
  | parseFail
deriving DecidableEq, Repr

/-- Split a byte stream at the first `'\n'`, returning the bytes before it and
the bytes after it; `none` when the stream holds no newline. -/
def splitAtNL : Str → Option (Str × Str)
  | [] => none
  | c :: cs =>
      if c = '\n' then some ([], cs)
      else
        match splitAtNL cs with
        | some (l, r) => some (c :: l, r)
        | none => none

/-- Drop a single trailing `'\r'`, as `bufio.ReadLine` does for a
`"\r\n"`-terminated line. -/
def stripTrailCR (l : Str) : Str :=
  match l.getLast? with
  | some c => if c = '\r' then l.dropLast else l
  | none => l

/-- `readLine` (response.go): one logical line via `bufio.ReadLine`, with the
`isPrefix` fragments re-joined.  The terminator (`"\n"`, with an optional
preceding `"\r"`) is consumed but not returned; a source that ends mid-line
yields the pending bytes with no error; an empty source yields `io.EOF`. -/
def readLine (s : Str) : Except RErr (Str × Str) :=
  if s = [] then .error .eof
  else
    match splitAtNL s with
    | some (l, r) => .ok (stripTrailCR l, r)
    | none => .ok (s, [])

/-- Decimal digit value of a character, `none` for non-digits. -/
def digitVal (c : Char) : Option Nat :=
  if '0' ≤ c ∧ c ≤ '9' then some (c.toNat - '0'.toNat) else none

/-- Accumulate base-10 digits left to right; `none` on any non-digit. -/
def parseDigitsAux : Nat → Str → Option Nat
  | acc, [] => some acc
  | acc, c :: cs =>
      match digitVal c with
      | some d => parseDigitsAux (acc * 10 + d) cs
      | none => none

/-- `strconv.ParseInt(s, 10, 64)`: an optional leading sign, then at least one
decimal digit and nothing else, with the value inside the `int64` range;
`none` models a non-nil error. -/
def parseGoInt (s : Str) : Option Int :=
  let core : Str → Option Int := fun t =>
    match t with
    | [] => none
    | _ => (parseDigitsAux 0 t).map Int.ofNat
  let signed : Option Int :=
    match s with
    | '+' :: t => core t
    | '-' :: t => (core t).map Int.neg
    | t => core t
  match signed with
  | some v => if -(2 ^ 63) ≤ v ∧ v ≤ 2 ^ 63 - 1 then some v else none
  | none => none

/-- The Go header map `Header` (header.go): per-key value lists in append
order, modelled as an association list in append order. -/
abbrev Header := List (Str × Str)

/-- `Header.Get`: the first value recorded for `k`, or `""`. -/
def hGet (h : Header) (k : Str) : Str :=
  match h.find? (fun kv => kv.fst = k) with
  | some kv => kv.snd
  | none => []

/-- Whitespace for `strings.TrimSpace` (the ASCII cases that can occur in the
byte streams of this development). -/
def isWS (c : Char) : Bool :=
  c = ' ' ∨ c = '\t' ∨ c = '\r' ∨ c = '\n'

/-- `strings.TrimSpace`: drop leading and trailing whitespace. -/
def trimSpace (s : Str) : Str :=
  (s.dropWhile isWS).reverse.dropWhile isWS |>.reverse

/-- `strings.Split(s, sep)` for a one-character separator. -/
def splitOnChar (sep : Char) : Str → List Str
  | [] => [[]]
  | c :: cs =>
      if c = sep then [] :: splitOnChar sep cs
      else
        match splitOnChar sep cs with
        | [] => [[c]]
        | l :: ls => (c :: l) :: ls

/-- `readHeader` loop body with explicit fuel (the Go loop consumes at least
one byte per line, so `s.length + 1` fuel always suffices): read lines until
an empty one; a line without `':'` or ending in `':'` is skipped; otherwise
the name is the part before the first `':'` and the trimmed remainder is
appended under that name. -/
def readHeaderAux : Nat → Header → Str → Except RErr (Header × Str)
  | 0, _, _ => .error .eof
  | fuel + 1, h, s =>
    match readLine s with
    | .error e => .error e
    | .ok (line, rest) =>
      if line = [] then .ok (h, rest)
      else
        match line.findIdx? (fun c => c = ':') with
        | none => readHeaderAux fuel h rest
        | some i =>
          if i = line.length - 1 then readHeaderAux fuel h rest
          else
            readHeaderAux fuel
              (h ++ [(line.take i, trimSpace (line.drop (i + 1)))]) rest

/-- `readHeader` (response.go): parse the header block up to and including the
empty line. -/
def readHeader (s : Str) : Except RErr (Header × Str) :=
  readHeaderAux (s.length + 1) [] s

/-- The body reader variants `setupBody` can select (response.go): the
`eofReader`, the `chunkReader`, or `io.LimitReader(bufr, n)` with the parsed
`Content-Length` (which the code does not require to be non-negative). -/
inductive BodyKind
  | emptyB
  | chunkedB
  | limitedB (n : Int)
deriving DecidableEq, Repr

/-- The selected body reader together with whether
`fixExpectContinueReader` wrapped it. -/
structure BodySel where
  kind : BodyKind
  expectWrapped : Bool
deriving DecidableEq, Repr

/-- `Request.chunked`: the `Transfer-Encoding` header equals `chunked`. -/
def chunkedHdr (h : Header) : Bool :=
  hGet h (str "Transfer-Encoding") = str "chunked"

/-- `fixExpectContinueReader` condition: the `Expect` header equals
`100-continue`. -/
def expectFlag (h : Header) : Bool :=
  hGet h (str "Expect") = str "100-continue"

/-- `Request.setupBody` (response.go): methods other than POST/PUT get the
empty reader; else `Transfer-Encoding: chunked` selects the chunk reader;
else a non-empty `Content-Length` that `ParseInt` accepts selects a limited
reader of that (possibly negative) length; all other cases get the empty
reader.  `fixExpectContinueReader` runs only in the chunked and
successfully-parsed `Content-Length` branches. -/
def setupBody (method : Str) (h : Header) : BodySel :=
  if method ≠ str "POST" ∧ method ≠ str "PUT" then ⟨.emptyB, false⟩
  else if chunkedHdr h then ⟨.chunkedB, expectFlag h⟩
  else if hGet h (str "Content-Length") ≠ [] then
    match parseGoInt (hGet h (str "Content-Length")) with
    | none => ⟨.emptyB, false⟩
    | some v => ⟨.limitedB v, expectFlag h⟩
  else ⟨.emptyB, false⟩

/-- One read from `io.LimitReader(bufr, n)` over a buffered source modelled as
the byte list it still delivers: `n ≤ 0` reports `io.EOF`; otherwise the
request is capped at `n`, an empty source reports `io.EOF` (except for a
zero-length request), and otherwise up to the cap is taken. -/
def limitedRead (n : Int) (plen : Nat) (s : Str) :
    Str × Option RErr × Int × Str :=
  if n ≤ 0 then ([], some .eof, n, s)
  else
    let cap := min plen n.toNat
    if s = [] then
      if cap = 0 then ([], none, n, s)
      else ([], some .eof, n, s)
    else
      let k := min cap s.length
      (s.take k, none, n - k, s.drop k)

/-- One read from the `eofReader` (response.go): zero bytes and `io.EOF`. -/
def emptyRead (_plen : Nat) (s : Str) : Str × Option RErr × Str :=
  ([], some .eof, s)

/-- Repeated reads of a limited reader until the first error, with the
destination size of read `i` given by `sched i`; returns the concatenated
data, the remaining limit and the remaining source. -/
def drainLimitedAux : Nat → Int → Str → (Nat → Nat) → Nat → Str × Int × Str
  | 0, n, s, _, _ => ([], n, s)
  | fuel + 1, n, s, sched, i =>
    match limitedRead n (sched i) s with
    | (d, none, n2, s2) =>
        let r := drainLimitedAux fuel n2 s2 sched (i + 1)
        (d ++ r.1, r.2.1, r.2.2)
    | (_, some _, n2, s2) => ([], n2, s2)

/-- Read a limited-reader body to exhaustion (enough fuel for the loop to hit
its terminating `io.EOF`). -/
def drainLimited (n : Int) (s : Str) (sched : Nat → Nat) : Str × Int × Str :=
  drainLimitedAux (n.toNat + 1) n s sched 0

/-- `chunkReader` state (chunk.go): bytes left in the current chunk and the
done flag. -/
structure ChunkReader where
  n : Int
  done : Bool
deriving DecidableEq, Repr

/-- Result of one `chunkReader.Read`: the returned bytes, the returned error,
and the updated reader and source; `panic` models the Go runtime panic raised
by slicing `p[:cr.n]` with a negative bound. -/
inductive ChunkRes
  | ok (d : Str) (e : Option RErr) (cr : ChunkReader) (s : Str)
  | panic
deriving DecidableEq, Repr

/-- `chunkReader.getChunkSize`: read one line and parse it with
`strconv.ParseInt(line, 10, 64)`; on failure the size result is `0` with a
non-nil error.  Returns (size, error, remaining source). -/
def getChunkSize (s : Str) : Int × Option RErr × Str :=
  match readLine s with
  | .error e => (0, some e, s)
  | .ok (line, rest) =>
    match parseGoInt line with
    | none => (0, some .parseFail, rest)
    | some v => (v, none, rest)

/-- `chunkReader.discardCRLF`: `io.ReadFull` of two bytes, then an error
unless the first is `'\r'` OR-checked with the second being `'\n'` (chunk.go
uses the correct disjunctive check). -/
def chunkDiscardCRLF (s : Str) : Option RErr × Str :=
  match s with
  | a :: b :: rest =>
      if a ≠ '\r' ∨ b ≠ '\n' then (some .badChunk, rest) else (none, rest)
  | [_] => (some .unexpectedEof, [])
  | [] => (some .eof, [])

/-- The tail of `chunkReader.Read` once the (refreshed) remaining count `n1`
and source `s1` are at hand: a zero size sets done and consumes the final
CRLF; a destination no larger than the remaining count reads through `bufio`
without touching the chunk-ending CRLF; otherwise `io.ReadFull(bufr, p[:cr.n])`
(a panic when the count is negative) empties the chunk and consumes its
CRLF. -/
def chunkReadData (cr : ChunkReader) (plen : Nat) (n1 : Int) (s1 : Str) :
    ChunkRes :=
  if n1 = 0 then
    let es := chunkDiscardCRLF s1
    .ok [] es.1 { n := 0, done := true } es.2
  else if (plen : Int) ≤ n1 then
    if s1 = [] then
      if plen = 0 then .ok [] none { cr with n := n1 } s1
      else .ok [] (some .eof) { cr with n := n1 } s1
    else
      let k := min plen s1.length
      .ok (s1.take k) none { cr with n := n1 - k } (s1.drop k)
  else if n1 < 0 then .panic
  else
    let k := min n1.toNat s1.length
    let es := chunkDiscardCRLF (s1.drop k)
    .ok (s1.take k) es.1 { n := 0, done := cr.done } es.2

/-- `chunkReader.Read` (chunk.go): done reports `io.EOF`; a zero remaining
count fetches the next size line (an error there returns with the zero count
recorded); otherwise the data tail runs. -/
def chunkRead (cr : ChunkReader) (plen : Nat) (s : Str) : ChunkRes :=
  if cr.done then .ok [] (some .eof) cr s
  else
    match (if cr.n = 0 then getChunkSize s else (cr.n, none, s)) with
    | (n1, some e, s1) => .ok [] (some e) { cr with n := n1 } s1
    | (n1, none, s1) => chunkReadData cr plen n1 s1

/-- Run `chunkReader.Read` once per entry of `plens` (the destination-buffer
sizes), collecting each call's data and error; `none` when a call panics. -/
def chunkReadSeq : ChunkReader → Str → List Nat → Option (List (Str × Option RErr))
  | _, _, [] => some []
  | cr, s, p :: ps =>
    match chunkRead cr p s with
    | .ok d e cr2 s2 => (chunkReadSeq cr2 s2 ps).map (fun l => (d, e) :: l)
    | .panic => none

/-- The size the next `getChunkSize` would parse from the source, when the
line reads and parses successfully. -/
def parsedChunkSize (s : Str) : Option Int :=
  match readLine s with
  | .ok lr => parseGoInt lr.1
  | .error _ => none

/-- The interim response the expect-continue wrapper emits and flushes. -/
def continueBytes : Str := str "HTTP/1.1 100 Continue\r\n\r\n"

/-- `expectContinueReader` state: the single-shot flag. -/
structure ECR where
  wroteContinue : Bool
deriving DecidableEq, Repr

/-- Observable events of a body read through the wrapper: the interim
response being written and flushed, or bytes handed to the handler. -/
inductive Ev
  | wrote100
  | body (d : Str)
deriving DecidableEq, Repr

/-- Whether an event is a data delivery (not the interim response). -/
def Ev.isBody : Ev → Bool
  | .wrote100 => false
  | .body _ => true

/-- `expectContinueReader.Read` over an arbitrary inner reader: when the flag
is unset, `HTTP/1.1 100 Continue\r\n\r\n` is written and flushed before the
delegated read; afterwards reads delegate directly.  The event list records
the order of the write and the data delivery within the call. -/
def ecrRead {σ : Type} (innerRead : σ → Nat → Str × Option RErr × σ)
    (er : ECR) (st : σ) (plen : Nat) : Str × Option RErr × ECR × σ × List Ev :=
  if er.wroteContinue then
    let r := innerRead st plen
    (r.1, r.2.1, er, r.2.2, [.body r.1])
  else
    let r := innerRead st plen
    (r.1, r.2.1, ⟨true⟩, r.2.2, [.wrote100, .body r.1])

/-- A sequence of reads through the wrapper, concatenating the event lists. -/
def ecrRun {σ : Type} (innerRead : σ → Nat → Str × Option RErr × σ) :
    ECR → σ → List Nat → ECR × σ × List Ev
  | er, st, [] => (er, st, [])
  | er, st, p :: ps =>
    let r := ecrRead innerRead er st p
    let rest := ecrRun innerRead r.2.2.1 r.2.2.2.1 ps
    (rest.1, rest.2.1, r.2.2.2.2 ++ rest.2.2)

/-- Go map indexing for the query/cookie maps built by repeated assignment:
the last write for a key wins, a missing key reads as `""`. -/
def qLookup (m : List (Str × Str)) (k : Str) : Str :=
  match m.reverse.find? (fun kv => kv.fst = k) with
  | some kv => kv.snd
  | none => []

/-- `parseQuery` (response.go): split on `'&'`; entries without `'='` or with
`'='` last are skipped; key and value are trimmed. -/
def parseQuery (rawQuery : Str) : List (Str × Str) :=
  (splitOnChar '&' rawQuery).foldl (fun acc v =>
    match v.findIdx? (fun c => c = '=') with
    | none => acc
    | some i =>
      if i = v.length - 1 then acc
      else acc ++ [(trimSpace (v.take i), trimSpace (v.drop (i + 1)))]) []

/-- `Request.parseCookies` map contents: every `Cookie` header value is
trimmed and split on `';'`; a lone empty segment list is skipped; segments
without `'='` are skipped; keys and values are trimmed. -/
def parseCookiesF (h : Header) : List (Str × Str) :=
  ((h.filter (fun kv => kv.fst = str "Cookie")).map Prod.snd).foldl
    (fun acc cookie =>
      let kvs := splitOnChar ';' (trimSpace cookie)
      if kvs = [[]] then acc
      else
        kvs.foldl (fun acc2 kv =>
          match kv.findIdx? (fun c => c = '=') with
          | none => acc2
          | some i =>
              acc2 ++ [(trimSpace (kv.take i), trimSpace (kv.drop (i + 1)))]) acc)
    []

/-- `strings.Trim(s, "\x22")`: strip the double-quote characters from both
ends. -/
def trimQuotes (s : Str) : Str :=
  (s.dropWhile (fun c => c = '"')).reverse.dropWhile (fun c => c = '"') |>.reverse

/-- `Request.parseContentType` (response.go): without `';'` the whole value
is the content type; a `';'` in last position leaves both fields empty; else
the part after `';'` is split on `'='` and only a `boundary` key records the
(unquoted) boundary together with the type before the `';'`. -/
def parseContentType (h : Header) : Str × Str :=
  let ct := hGet h (str "Content-Type")
  match ct.findIdx? (fun c => c = ';') with
  | none => (ct, [])
  | some i =>
    if i = ct.length - 1 then ([], [])
    else
      let ss := splitOnChar '=' (ct.drop (i + 1))
      if ss.length < 2 ∨ trimSpace (ss.headD []) ≠ str "boundary" then ([], [])
      else (ct.take i, trimQuotes ((ss.get? 1).getD []))

/-- The parsed `Request` (response.go), with the lazily populated maps as
`Option`s (`none` models the nil Go map). -/
structure Request where
  method : Str
  requestURI : Str
  proto : Str
  urlPath : Str
  rawQuery : Str
  header : Header
  queryString : Option (List (Str × Str))
  cookies : Option (List (Str × Str))
  body : BodySel
  contentType : Str
  boundary : Str
deriving DecidableEq, Repr

/-- `Request.Query`: a pure lookup in the query map filled during parsing
(reading a nil map yields `""`); no state change. -/
def queryGet (r : Request) (name : Str) : Str :=
  qLookup (r.queryString.getD []) name

/-- `Request.parseCookies`: fill the cookie map unless already non-nil. -/
def reqParseCookies (r : Request) : Request :=
  if r.cookies ≠ none then r
  else { r with cookies := some (parseCookiesF r.header) }

/-- `Request.Cookie`: parse the cookie map on first access, then look up.
Returns the value and the (possibly updated) request. -/
def cookieGet (r : Request) (name : Str) : Str × Request :=
  let r2 := if r.cookies = none then reqParseCookies r else r
  (qLookup (r2.cookies.getD []) name, r2)

/-- Per-connection read state (conn.go): the mutable `io.LimitedReader` cap
`lr.N`, the bytes currently held by the 4 KiB `bufio.Reader`, and the bytes
the transport still delivers.  Output buffering is write-side only and is not
part of the read state. -/
structure Conn where
  lrN : Int
  buf : Str
  src : Str
deriving DecidableEq, Repr

/-- The `noLimit` constant of `readRequest`. -/
def noLimit : Int := 2 ^ 63 - 1

/-- `newConn` (conn.go): the cap starts at `1 << 20`. -/
def newConn (src : Str) : Conn := { lrN := 2 ^ 20, buf := [], src := src }

/-- One `bufio` buffer fill: a single `Read` on the `io.LimitedReader` with a
4 KiB destination; the cap decreases by the bytes pulled. -/
def connFill (c : Conn) : Conn :=
  if c.lrN ≤ 0 then c
  else
    let k := min 4096 (min c.lrN.toNat c.src.length)
    { c with buf := c.src.take k, src := c.src.drop k, lrN := c.lrN - k }

/-- `bufio.ReadLine` with re-joined fragments over the connection: scan the
buffer for `'\n'`, pulling further fills while no terminator is present; a
source that ends mid-line yields the pending bytes; an empty source yields
`io.EOF`.  Each fill consumes source bytes, so `src.length + 1` fuel
suffices. -/
def connReadLineAux : Nat → Conn → Str → Except RErr (Str × Conn)
  | 0, _, _ => .error .eof
  | fuel + 1, c, acc =>
    match splitAtNL c.buf with
    | some (l, r) => .ok (stripTrailCR (acc ++ l), { c with buf := r })
    | none =>
      let acc2 := acc ++ c.buf
      let c2 := connFill { c with buf := [] }
      if c2.buf = [] then
        if acc2 = [] then .error .eof else .ok (acc2, c2)
      else connReadLineAux fuel c2 acc2

/-- One logical line from the connection. -/
def connReadLine (c : Conn) : Except RErr (Str × Conn) :=
  connReadLineAux (c.src.length + 1) c []

/-- `readHeader` over the connection stream (same per-line logic as
`readHeaderAux`). -/
def connReadHeaderAux : Nat → Header → Conn → Except RErr (Header × Conn)
  | 0, _, _ => .error .eof
  | fuel + 1, h, c =>
    match connReadLine c with
    | .error e => .error e
    | .ok (line, c2) =>
      if line = [] then .ok (h, c2)
      else
        match line.findIdx? (fun ch => ch = ':') with
        | none => connReadHeaderAux fuel h c2
        | some i =>
          if i = line.length - 1 then connReadHeaderAux fuel h c2
          else
            connReadHeaderAux fuel
              (h ++ [(line.take i, trimSpace (line.drop (i + 1)))]) c2

/-- Header block parsing over the connection. -/
def connReadHeader (c : Conn) : Except RErr (Header × Conn) :=
  connReadHeaderAux (c.buf.length + c.src.length + 1) [] c

/-- Maximal non-whitespace runs, as `fmt.Sscanf` `%s` scans them. -/
def splitWSAux : Str → Str → List Str
  | acc, [] => if acc = [] then [] else [acc.reverse]
  | acc, c :: cs =>
    if isWS c then
      if acc = [] then splitWSAux [] cs else acc.reverse :: splitWSAux [] cs
    else splitWSAux (c :: acc) cs

/-- Split a line into whitespace-separated tokens. -/
def splitWS (s : Str) : List Str := splitWSAux [] s

/-- `fmt.Sscanf(line, "%s%s%s", ...)`: the first three whitespace-separated
tokens; fewer than three is an error. -/
def sscanf3 (line : Str) : Except RErr (Str × Str × Str) :=
  match splitWS line with
  | m :: u :: p :: _ => .ok (m, u, p)
  | _ => .error .badRequestLine

/-- Modelled from the external `net/url.ParseRequestURI` (standard library,
outside this repository), restricted to the origin-form targets this core
receives: a target starting with `'/'` splits into path and raw query at the
first `'?'`; other targets are rejected. -/
def urlParseLite (u : Str) : Except RErr (Str × Str) :=
  match u with
  | '/' :: _ =>
    match u.findIdx? (fun c => c = '?') with
    | some i => .ok (u.take i, u.drop (i + 1))
    | none => .ok (u, [])
  | _ => .error .badURL

/-- `readRequest` (response.go) at the connection level: read the request
line, scan its three tokens, parse the target, eagerly fill the query map
(`r.parseQuery()`), parse the header block, raise the cap to `noLimit`, set
up the body and the content type.  The cookie map is left nil. -/
def readRequestB (c : Conn) : Except RErr (Request × Conn) :=
  match connReadLine c with
  | .error e => .error e
  | .ok (line, c1) =>
    match sscanf3 line with
    | .error e => .error e
    | .ok (m, uri, proto) =>
      match urlParseLite uri with
      | .error e => .error e
      | .ok (path, rq) =>
        match connReadHeader c1 with
        | .error e => .error e
        | .ok (h, c2) =>
          let c3 := { c2 with lrN := noLimit }
          let ctb := parseContentType h
          .ok ({ method := m, requestURI := uri, proto := proto,
                 urlPath := path, rawQuery := rq, header := h,
                 queryString := some (parseQuery rq), cookies := none,
                 body := setupBody m h,
                 contentType := ctb.1, boundary := ctb.2 }, c3)

/-- The step between handler return and the next loop iteration in
`conn.serve`: only `c.bufw.Flush()`, which touches the write side; the read
state (cap, buffer, source) is unchanged, and in particular no drain of the
request body and no cap reset take place. -/
def postHandlerFlush (c : Conn) : Conn := c

/-- One `bufio.Read` on the connection with destination size `cap`: serve
from the buffer, filling once from the capped source when it is empty. -/
def connRead (c : Conn) (cap : Nat) : Str × Option RErr × Conn :=
  if cap = 0 then ([], none, c)
  else if c.buf ≠ [] then
    let k := min cap c.buf.length
    (c.buf.take k, none, { c with buf := c.buf.drop k })
  else
    let c2 := connFill c
    if c2.buf = [] then ([], some .eof, c2)
    else
      let k := min cap c2.buf.length
      (c2.buf.take k, none, { c2 with buf := c2.buf.drop k })

/-- One read of a request body `io.LimitReader(r.conn.bufr, n)` at the
connection level. -/
def connLimitedRead (n : Int) (plen : Nat) (c : Conn) :
    Str × Option RErr × Int × Conn :=
  if n ≤ 0 then ([], some .eof, n, c)
  else
    let r := connRead c (min plen n.toNat)
    (r.1, r.2.1, n - r.1.length, r.2.2)

/-- The `conn.serve` loop with a handler that performs no body reads (the
`myHandler` of main.go), recording the cap `lr.N` at the start of each
request parse; the loop stops when `readRequest` fails. -/
def serveNsAux : Nat → Conn → List Int
  | 0, _ => []
  | fuel + 1, c =>
    c.lrN ::
      (match readRequestB c with
       | .error _ => []
       | .ok rc => serveNsAux fuel (postHandlerFlush rc.2))

/-- The four delimiter patterns of `MultipartReader` (mime.go). -/
structure MPConf where
  crlfDashBoundary : Str
  crlfDashBoundaryDash : Str
  dashBoundary : Str
  dashBoundaryDash : Str
deriving DecidableEq, Repr

/-- `NewMultipartReader`: derive the four patterns from the boundary by
slicing `"\r\n--" ++ boundary ++ "--"`. -/
def mkMP (boundary : Str) : MPConf :=
  let b := str "\r\n--" ++ boundary ++ str "--"
  { crlfDashBoundary := b.take (b.length - 2)
  , crlfDashBoundaryDash := b
  , dashBoundary := (b.drop 2).take (b.length - 4)
  , dashBoundaryDash := b.drop 2 }

/-- Multipart source state: the bytes the shared `bufio.Reader` over the body
still delivers, and the `occurEofErr` flag.  Once the flag is set every
remaining byte sits in the buffer, so `Buffered()` equals the whole
remainder. -/
structure MPState where
  s : Str
  occurEof : Bool
deriving DecidableEq, Repr

/-- `Part` state: its header map, the closed flag, and the installed
substitute reader's remaining limit (`none` while no substitute is set). -/
structure PartSt where
  header : Header
  closed : Bool
  subst : Option Int
deriving DecidableEq, Repr

/-- Result of one `Part.Read`; `panic` models the Go slice panic on a
negative hold-back bound. -/
inductive PRes
  | ok (d : Str) (e : Option RErr) (mp : MPState) (p : PartSt)
  | panic
deriving DecidableEq, Repr

/-- Scan for the first occurrence of `pat` from position `i` on. -/
def findPatAux (pat : Str) : Str → Nat → Option Nat
  | s, i =>
    if pat.isPrefixOf s then some i
    else
      match s with
      | [] => none
      | _ :: cs => findPatAux pat cs (i + 1)

/-- `bytes.Index`: the first index at which `pat` occurs fully inside `s`
(`none` models `-1`). -/
def findPat (pat s : Str) : Option Nat := findPatAux pat s 0

/-- One read of the substitute `io.LimitReader(bufr, n)` installed on a part
(the installation itself records `n`; the read then updates it). -/
def substRead (n : Int) (plen : Nat) (mp : MPState) (p : PartSt) : PRes :=
  if n ≤ 0 then .ok [] (some .eof) mp { p with subst := some n }
  else
    let cap := min plen n.toNat
    if mp.s = [] then
      if cap = 0 then .ok [] none mp { p with subst := some n }
      else .ok [] (some .eof) mp { p with subst := some n }
    else
      let k := min cap mp.s.length
      .ok (mp.s.take k) none { mp with s := mp.s.drop k }
        { p with subst := some (n - k) }

/-- `Part.Read` (mime.go).  Closed parts report `io.EOF`; an installed
substitute reader is delegated to; otherwise the code peeks (the whole
remaining buffer once source EOF was seen, else a full 4 KiB window,
recording the EOF and retrying once when the source is shorter), searches the
peeked bytes for `"\r\n--" ++ boundary`, installs a substitute limited to the
found index (or to `-1` at source EOF) and delegates, and on no hit returns
buffer bytes while holding back `len(pattern) - 1` bytes of the window.  A
negative hold-back count panics like the Go slice expression; the fuel only
feeds the single retry after recording the EOF. -/
def partReadAux : Nat → MPConf → MPState → PartSt → Nat → PRes
  | 0, _, mp, p, _ => .ok [] (some .eof) mp p
  | fuel + 1, cf, mp, p, plen =>
    if p.closed then .ok [] (some .eof) mp p
    else
      match p.subst with
      | some n => substRead n plen mp p
      | none =>
        if mp.occurEof then
          match findPat cf.crlfDashBoundary mp.s with
          | some i => substRead (Int.ofNat i) plen mp p
          | none => substRead (-1) plen mp p
        else if 4096 ≤ mp.s.length then
          match findPat cf.crlfDashBoundary (mp.s.take 4096) with
          | some i => substRead (Int.ofNat i) plen mp p
          | none =>
            let mraw : Int := 4096 - cf.crlfDashBoundary.length + 1
            let mr : Int := if (plen : Int) < mraw then (plen : Int) else mraw
            if mr < 0 then .panic
            else
              let k := min mr.toNat mp.s.length
              .ok (mp.s.take k) none { mp with s := mp.s.drop k } p
        else partReadAux fuel cf { mp with occurEof := true } p plen

/-- `Part.Read` with the retry fuel it needs (one recording of the EOF). -/
def partRead (cf : MPConf) (mp : MPState) (p : PartSt) (plen : Nat) : PRes :=
  partReadAux 2 cf mp p plen

/-- Read a part until its first error, with destination sizes `sched i`;
returns the concatenated data, the terminating error, the final states and
the next schedule index.  `none` covers a panic (or fuel exhaustion, which
matches the Go loop never terminating). -/
def readPartFullAux : Nat → MPConf → MPState → PartSt → (Nat → Nat) → Nat →
    Option (Str × RErr × MPState × PartSt × Nat)
  | 0, _, _, _, _, _ => none
  | fuel + 1, cf, mp, p, sched, i =>
    match partRead cf mp p (sched i) with
    | .panic => none
    | .ok d none mp2 p2 =>
      match readPartFullAux fuel cf mp2 p2 sched (i + 1) with
      | some r => some (d ++ r.1, r.2.1, r.2.2.1, r.2.2.2.1, r.2.2.2.2)
      | none => none
    | .ok d (some e) mp2 p2 => some (d, e, mp2, p2, i + 1)

/-- `Part.Close` (mime.go): a closed part returns nil at once and consumes
nothing; otherwise `io.Copy(ioutil.Discard, p)` reads with 32 KiB
destinations until an error (`io.EOF` counting as success) and the part is
marked closed. -/
def partClose (cf : MPConf) (mp : MPState) (p : PartSt) :
    Option (Option RErr × MPState × PartSt) :=
  if p.closed then some (none, mp, p)
  else
    match readPartFullAux (mp.s.length + 2) cf mp p (fun _ => 32768) 0 with
    | none => none
    | some r =>
      some ((if r.2.1 = .eof then none else some r.2.1),
        r.2.2.1, { r.2.2.2.1 with closed := true })

/-- `MultipartReader.discardCRLF`: two bytes via `io.ReadFull`; the source
mismatch check is `crlf[0] != '\r' && crlf[1] != '\n'`, so the error fires
only when BOTH bytes differ. -/
def mpDiscardCRLF (mp : MPState) : Option RErr × MPState :=
  match mp.s with
  | a :: b :: rest =>
    if a ≠ '\r' ∧ b ≠ '\n' then (some .badCrlf, { mp with s := rest })
    else (none, { mp with s := rest })
  | [_] => (some .unexpectedEof, { mp with s := [] })
  | [] => (some .eof, mp)

/-- Result of `NextPart`: a new part, the final-delimiter `io.EOF`, an error,
or a panic bubbled up from draining the current part. -/
inductive NPRes
  | okP (p : PartSt) (mp : MPState)
  | eofEnd (mp : MPState)
  | fail (e : RErr) (mp : MPState)
  | panic
deriving DecidableEq, Repr

/-- The line-dispatch phase of `NextPart`: read exactly one line; the final
delimiter `--B--` returns `io.EOF`; the plain delimiter `--B` parses the new
part's headers; anything else is the want-delimiter error. -/
def nextPartLine (cf : MPConf) (mp : MPState) : NPRes :=
  match readLine mp.s with
  | .error e => .fail e mp
  | .ok (line, rest) =>
    if line = cf.dashBoundaryDash then .eofEnd { mp with s := rest }
    else if line ≠ cf.dashBoundary then
      .fail .wantDelimiter { mp with s := rest }
    else
      match readHeader rest with
      | .error e => .fail e { mp with s := rest }
      | .ok (h, rest2) =>
        .okP { header := h, closed := false, subst := none }
          { mp with s := rest2 }

/-- `MultipartReader.NextPart` (mime.go): close the current part if any
(draining its remaining bytes) and consume the following CRLF, then dispatch
on one boundary line. -/
def nextPart (cf : MPConf) (mp : MPState) (cur : Option PartSt) : NPRes :=
  match cur with
  | none => nextPartLine cf mp
  | some cp =>
    match partClose cf mp cp with
    | none => .panic
    | some (some e, mp2, _) => .fail e mp2
    | some (none, mp2, _) =>
      match mpDiscardCRLF mp2 with
      | (some e, mp3) => .fail e mp3
      | (none, mp3) => nextPartLine cf mp3

/-- Iterate `NextPart`, reading each returned part to exhaustion with
destination sizes `sched i`; collects per part the content bytes and the
error that ended the part's reads, plus whether the iteration ended with
`NextPart` returning `io.EOF` (`false` records another error; `none` a panic
or divergence). -/
def mpRunAux : Nat → MPConf → MPState → Option PartSt → (Nat → Nat) → Nat →
    Option (List (Str × RErr) × Bool)
  | 0, _, _, _, _, _ => none
  | fuel + 1, cf, mp, cur, sched, i =>
    match nextPart cf mp cur with
    | .eofEnd _ => some ([], true)
    | .fail _ _ => some ([], false)
    | .panic => none
    | .okP p mp2 =>
      match readPartFullAux (mp2.s.length + 2) cf mp2 p sched i with
      | none => none
      | some r =>
        match mpRunAux fuel cf r.2.2.1 (some r.2.2.2.1) sched r.2.2.2.2 with
        | some rest => some ((r.1, r.2.1) :: rest.1, rest.2)
        | none => none

/-- Run a whole multipart body through `NextPart`/`Part.Read`. -/
def mpRun (boundary : Str) (body : Str) (sched : Nat → Nat) :
    Option (List (Str × RErr) × Bool) :=
  mpRunAux (body.length + 1) (mkMP boundary)
    { s := body, occurEof := false } none sched 0

/-- One part of a multipart fixture: header lines and content bytes. -/
structure MPart where
  headers : List Str
  content : Str
deriving DecidableEq, Repr

/-- The byte block of a list of CRLF-terminated header lines. -/
def hdrBlock (hl : List Str) : Str :=
  hl.foldr (fun l acc => l ++ str "\r\n" ++ acc) []

/-- The byte block of one part: its header lines, the blank line, and its
content. -/
def partSeg (p : MPart) : Str :=
  hdrBlock p.headers ++ str "\r\n" ++ p.content

/-- The encoding of the remaining parts from the point right after a
`"--" ++ B` token: each part contributes the line-ending CRLF, its block and
the next `"\r\n--" ++ B`; the final delimiter closes with `"--\r\n"`. -/
def segsFrom (B : Str) : List MPart → Str
  | [] => str "--\r\n"
  | p :: ps => str "\r\n" ++ partSeg p ++ str "\r\n--" ++ B ++ segsFrom B ps

/-- A multipart body for boundary `B` and the given parts. -/
def encodeMP (B : Str) (ps : List MPart) : Str :=
  str "--" ++ B ++ segsFrom B ps

/-- No occurrence of `pat` starts strictly inside `c` when `c` is followed by
`pat`: the delimiter search finds the true delimiter first. -/
def NoEarlyPat (pat c : Str) : Prop :=
  ∀ j < c.length, ¬ pat.isPrefixOf ((c ++ pat).drop j)

/-- Well-formedness of a multipart fixture: a nonempty boundary that fits the
4 KiB peek window and avoids CR/LF; header lines that are nonempty and
CR/LF-free; contents in which the part delimiter search cannot fire early. -/
def WellFormedMP (B : Str) (ps : List MPart) : Prop :=
  B ≠ [] ∧ B.length + 4 ≤ 4096 ∧ (∀ ch ∈ B, ch ≠ '\r' ∧ ch ≠ '\n') ∧
    ∀ p ∈ ps,
      (∀ l ∈ p.headers, l ≠ [] ∧ ∀ ch ∈ l, ch ≠ '\r' ∧ ch ≠ '\n') ∧
        NoEarlyPat (str "\r\n--" ++ B) p.content

instance (pat c : Str) : Decidable (NoEarlyPat pat c) := by
  unfold NoEarlyPat; infer_instance

instance (B : Str) (ps : List MPart) : Decidable (WellFormedMP B ps) := by
  unfold WellFormedMP; infer_instance

/-- Fixture: a 5-byte `Content-Length` POST whose body the handler never
reads, pipelined with a well-formed GET on the same connection. -/
def c1input : Str :=
  str "POST /p HTTP/1.1\r\nContent-Length: 5\r\n\r\nhelloGET /x HTTP/1.1\r\nHost: h\r\n\r\n"

/-- The first request parse of the `c1input` connection. -/
def c1FirstStep : Option (Request × Conn) :=
  (readRequestB (newConn c1input)).toOption

/-- Fixture: two pipelined well-formed GET requests. -/
def twoGets : Str :=
  str "GET /a?x=1 HTTP/1.1\r\nHost: h\r\n\r\nGET /b HTTP/1.1\r\nHost: h\r\n\r\n"

/-- Fixture: a minimal GET request. -/
def miniGet : Str := str "GET / HTTP/1.1\r\n\r\n"

/-- The request value `readRequest` produces for `miniGet`. -/
def miniReq : Request :=
  { method := str "GET", requestURI := str "/", proto := str "HTTP/1.1"
  , urlPath := str "/", rawQuery := [], header := []
  , queryString := some [], cookies := none
  , body := ⟨.emptyB, false⟩, contentType := [], boundary := [] }

/-- The connection state after parsing `miniGet`. -/
def miniConn : Conn := { lrN := noLimit, buf := [], src := [] }

/-- Fixture: a GET with a query string and a cookie header. -/
def c8input : Str := str "GET /a?x=1 HTTP/1.1\r\nCookie: a=1\r\n\r\n"

/-- The request value `readRequest` produces for `c8input`. -/
def c8Req : Request :=
  { method := str "GET", requestURI := str "/a?x=1", proto := str "HTTP/1.1"
  , urlPath := str "/a", rawQuery := str "x=1"
  , header := [(str "Cookie", str "a=1")]
  , queryString := some [(str "x", str "1")], cookies := none
  , body := ⟨.emptyB, false⟩, contentType := [], boundary := [] }

/-- The connection state after parsing `c8input`. -/
def c8Conn : Conn := { lrN := noLimit, buf := [], src := [] }

instance {ε α : Type} [DecidableEq ε] [DecidableEq α] :
    DecidableEq (Except ε α) := fun x y =>
  match x, y with
  | .ok a, .ok b =>
    if h : a = b then isTrue (by rw [h])
    else isFalse (fun he => by cases he; exact h rfl)
  | .error a, .error b =>
    if h : a = b then isTrue (by rw [h])
    else isFalse (fun he => by cases he; exact h rfl)
  | .ok _, .error _ => isFalse (fun h => by cases h)
  | .error _, .ok _ => isFalse (fun h => by cases h)

/-!  Helper lemmas. -/

/-- Exactness of the limited-reader drain loop: with positive destination
sizes, a non-negative limit within the source length is consumed exactly. -/
theorem drainLimitedAux_exact (fuel : Nat) :
    ∀ (n : Int) (s : Str) (sched : Nat → Nat) (i : Nat),
      (∀ j, 0 < sched j) → 0 ≤ n → n.toNat ≤ s.length → n.toNat + 1 ≤ fuel →
      drainLimitedAux fuel n s sched i = (s.take n.toNat, 0, s.drop n.toNat) := by
  induction fuel with
  | zero => intro n s sched i _ _ _ hf; omega
  | succ fuel ih =>
    intro n s sched i hs h0 hlen _
    by_cases hn : n ≤ 0
    · have hn0 : n = 0 := le_antisymm hn h0
      subst hn0
      simp [drainLimitedAux, limitedRead]
    · have hpos : 0 < n := lt_of_not_ge hn
      have htn : 0 < n.toNat := by omega
      have hsne : s ≠ [] := by
        intro h; subst h; simp at hlen; omega
      have hcap : 0 < min (sched i) n.toNat :=
        lt_min (hs i) htn
      set k := min (min (sched i) n.toNat) s.length with hk
      have hkpos : 0 < k := by
        apply lt_min hcap
        cases s with
        | nil => exact absurd rfl hsne
        | cons a l => simp
      have hkn : k ≤ n.toNat := by
        have := min_le_left (min (sched i) n.toNat) s.length
        have := min_le_right (sched i) n.toNat
        omega
      have hks : k ≤ s.length := min_le_right _ _
      have hrec := ih (n - k) (s.drop k) sched (i + 1) hs
        (by omega)
        (by
          rw [List.length_drop]
          have : (n - (k : Int)).toNat = n.toNat - k := by omega
          omega)
        (by
          have : (n - (k : Int)).toNat = n.toNat - k := by omega
          omega)
      have hres : drainLimitedAux (fuel + 1) n s sched i
          = (s.take k ++ (drainLimitedAux fuel (n - k) (s.drop k) sched (i + 1)).1,
             (drainLimitedAux fuel (n - k) (s.drop k) sched (i + 1)).2.1,
             (drainLimitedAux fuel (n - k) (s.drop k) sched (i + 1)).2.2) := by
        simp only [drainLimitedAux, limitedRead, if_neg hn, if_neg hsne]
      rw [hres, hrec]
      have htk : (n - (k : Int)).toNat = n.toNat - k := by omega
      rw [htk]
      simp only [Prod.mk.injEq]
      refine ⟨?_, trivial, ?_⟩
      · rw [← List.take_add]
        congr 1
        omega
      · rw [List.drop_drop]
        congr 1
        omega

/-- Once the single-shot flag is set, every further wrapper read emits only
data-delivery events. -/
theorem ecrRun_wrote_all_body {σ : Type}
    (innerRead : σ → Nat → Str × Option RErr × σ) :
    ∀ (plens : List Nat) (st : σ),
      ((ecrRun innerRead ⟨true⟩ st plens).2.2.all Ev.isBody) = true := by
  intro plens
  induction plens with
  | nil => intro st; simp [ecrRun]
  | cons p ps ih =>
    intro st
    simp [ecrRun, ecrRead, Ev.isBody, ih]

/-!  Claim theorems. -/

/-- C1.  The spec says the core unconditionally drains the request body to
end-of-stream after the handler returns, so that the body reader reports
end-of-stream on the next read and the next request parses cleanly.  The code
defines `finishRequest` for exactly this purpose (its comment says the
framework must consume the unread body after the handler), but `conn.serve`
never calls it: after a handler that reads nothing returns, the next read of
the 5-byte body still yields `hello` with no error, and the second request on
the connection parses with method `helloGET` instead of `GET`. -/
theorem conn_serve_never_drains :
    (c1FirstStep.map (fun rc => rc.1.method)) = some (str "POST")
  ∧ (c1FirstStep.map (fun rc => rc.1.body)) = some ⟨.limitedB 5, false⟩
  ∧ (c1FirstStep.map (fun rc =>
      (connLimitedRead 5 100 (postHandlerFlush rc.2)).1)) = some (str "hello")
  ∧ (c1FirstStep.map (fun rc =>
      (connLimitedRead 5 100 (postHandlerFlush rc.2)).2.1)) = some none
  ∧ (c1FirstStep.bind (fun rc =>
      (readRequestB (postHandlerFlush rc.2)).toOption.map
        (fun rc2 => rc2.1.method))) = some (str "helloGET") := by
  decide

/-- C2, counterexample.  The claim says the cap equals the 1 MiB header limit
at the start of every request parse on the connection.  On two pipelined GET
requests the caps observed at the three parse starts are
`[2^20, 2^63 - 1, 2^63 - 1]`: the second and third parses begin with the
raised cap, which is never reset. -/
theorem serve_cap_not_reset_cex :
    serveNsAux 3 (newConn twoGets) = [2 ^ 20, noLimit, noLimit]
  ∧ noLimit ≠ 2 ^ 20 := by
  decide

/-- C2, amended.  The cap is `1 << 20` when the connection is created, so the
first parse begins under the header limit; `readRequest` raises it to
`2^63 - 1` by the time it returns (immediately after the headers are parsed);
and the only step `conn.serve` performs between handler return and the next
parse (the flush) leaves the connection's read state, in particular the cap,
unchanged — there is no reset to the header limit. -/
theorem cap_lifecycle (s : Str) (c c2 : Conn) (r : Request)
    (h : readRequestB c = .ok (r, c2)) :
    (newConn s).lrN = 2 ^ 20 ∧ c2.lrN = noLimit ∧ postHandlerFlush c2 = c2 := by
  refine ⟨rfl, ?_, rfl⟩
  unfold readRequestB at h
  repeat' split at h
  all_goals simp only [Except.ok.injEq, Prod.mk.injEq, reduceCtorEq] at h
  obtain ⟨-, hc⟩ := h
  subst hc
  rfl

/-- C2 amended, witness at a concrete parse. -/
theorem cap_lifecycle_witness :
    readRequestB (newConn miniGet) = .ok (miniReq, miniConn)
  ∧ ((newConn miniGet).lrN = 2 ^ 20 ∧ miniConn.lrN = noLimit
      ∧ postHandlerFlush miniConn = miniConn) :=
  ⟨by decide, cap_lifecycle miniGet (newConn miniGet) miniConn miniReq (by decide)⟩

/-- With a non-negative remaining count, the data tail of the chunk read
always returns normally, with at most `plen` bytes and a non-negative
count. -/
theorem chunkReadData_ok (cr : ChunkReader) (plen : Nat) (n1 : Int) (s1 : Str)
    (h : 0 ≤ n1) :
    ∃ d e cr2 s2, chunkReadData cr plen n1 s1 = .ok d e cr2 s2
      ∧ d.length ≤ plen ∧ 0 ≤ cr2.n := by
  unfold chunkReadData
  by_cases h0 : n1 = 0
  · simp only [if_pos h0]
    exact ⟨_, _, _, _, rfl, by simp, by simp⟩
  · simp only [if_neg h0]
    by_cases hple : (plen : Int) ≤ n1
    · simp only [if_pos hple]
      by_cases hs : s1 = []
      · simp only [if_pos hs]
        by_cases hp0 : plen = 0
        · simp only [if_pos hp0]
          exact ⟨_, _, _, _, rfl, by simp, h⟩
        · simp only [if_neg hp0]
          exact ⟨_, _, _, _, rfl, by simp, h⟩
      · simp only [if_neg hs]
        refine ⟨_, _, _, _, rfl, ?_, ?_⟩
        · simp only [List.length_take]
          omega
        · show (0 : Int) ≤ n1 - (min plen s1.length : Nat)
          have hc : ((min plen s1.length : Nat) : Int) ≤ (plen : Int) := by
            exact_mod_cast min_le_left _ _
          omega
    · have hneg : ¬ n1 < 0 := by omega
      simp only [if_neg hple, if_neg hneg]
      refine ⟨_, _, _, _, rfl, ?_, by simp⟩
      simp only [List.length_take]
      have : n1.toNat < plen := by omega
      omega

/-- The data tail panics exactly for a negative remaining count (the Go
slice `p[:cr.n]` with a negative bound). -/
theorem chunkReadData_panic_iff (cr : ChunkReader) (plen : Nat) (n1 : Int)
    (s1 : Str) :
    chunkReadData cr plen n1 s1 = .panic ↔ n1 < 0 := by
  constructor
  · intro h
    by_contra hge
    obtain ⟨d, e, cr2, s2, hok, -, -⟩ :=
      chunkReadData_ok cr plen n1 s1 (by omega)
    rw [hok] at h
    exact absurd h (by simp)
  · intro h
    unfold chunkReadData
    rw [if_neg (by omega), if_neg (by
      intro hc
      have : (0 : Int) ≤ (plen : Int) := by positivity
      omega), if_pos h]

/-- A failing `getChunkSize` leaves the zero size in place. -/
theorem getChunkSize_err_zero (s : Str) (n1 : Int) (e : RErr) (s1 : Str)
    (h : getChunkSize s = (n1, some e, s1)) : n1 = 0 := by
  unfold getChunkSize at h
  split at h
  · simp only [Prod.mk.injEq] at h
    exact h.1.symm
  · split at h <;> simp only [Prod.mk.injEq] at h
    · exact h.1.symm
    · exact absurd h.2.1 (by simp)

/-- A successful `getChunkSize` returns the parsed size of the next line. -/
theorem getChunkSize_ok_parsed (s : Str) (v : Int) (s1 : Str)
    (h : getChunkSize s = (v, none, s1)) : parsedChunkSize s = some v := by
  unfold getChunkSize at h
  unfold parsedChunkSize
  split at h
  next heq => simp only [Prod.mk.injEq] at h; exact absurd h.2.1 (by simp)
  next l rest heq =>
    rw [heq]
    show parseGoInt l = some v
    split at h <;> simp only [Prod.mk.injEq] at h
    · exact absurd h.2.1 (by simp)
    next v2 heq2 => rw [heq2, h.1]

/-- C5.  The chunked round-trip fails for destination sizes that exhaust a
chunk exactly: for the encoding of `hello` as one 5-byte chunk, reads with
destination sizes `[5, 1]` yield `hello` and then a `ParseInt` failure on the
empty line (the `len(p) <= cr.n` branch never consumes the chunk-ending CRLF,
so the next size line reads as `""`), while destination size `6` decodes the
same payload cleanly to end-of-stream.  The spec's algorithm (§4.3) requires
the CRLF to be consumed whenever the remaining count reaches zero, and its
round-trip property quantifies over all destination sizes, so the code
contradicts the specified intent on this input. -/
theorem chunk_exact_buffer_loses_crlf :
    chunkReadSeq ⟨0, false⟩ (str "5\r\nhello\r\n0\r\n\r\n") [5, 1]
      = some [(str "hello", none), ([], some .parseFail)]
  ∧ chunkReadSeq ⟨0, false⟩ (str "5\r\nhello\r\n0\r\n\r\n") [6, 6, 6]
      = some [(str "hello", none), ([], none), ([], some .eof)] := by
  decide

/-- C9, counterexample.  `chunkReader.Read` is not total: a chunk-size line
that parses as a negative number reaches `io.ReadFull(cr.bufr, p[:cr.n])`
with a negative slice bound, a Go runtime panic. -/
theorem chunkRead_panic_cex :
    chunkRead ⟨0, false⟩ 1 (str "-1\r\nxx") = .panic := by
  decide

/-- C9, amended.  From any state with a non-negative remaining count (every
reachable state), `chunkReader.Read` either returns normally with `0 ≤ n ≤
len(dst)` bytes, an optional error, and again a non-negative count — or it
panics, and then necessarily the remaining count was zero and the next
chunk-size line parsed as a negative integer. -/
theorem chunkRead_total_amended (cr : ChunkReader) (plen : Nat) (s : Str)
    (h0 : 0 ≤ cr.n) :
    (∃ d e cr2 s2, chunkRead cr plen s = .ok d e cr2 s2
        ∧ d.length ≤ plen ∧ 0 ≤ cr2.n)
  ∨ (chunkRead cr plen s = .panic ∧ cr.n = 0
      ∧ ∃ v, parsedChunkSize s = some v ∧ v < 0) := by
  unfold chunkRead
  by_cases hd : cr.done
  · left
    exact ⟨[], some .eof, cr, s, by rw [if_pos hd], by simp, h0⟩
  · rw [if_neg hd]
    by_cases hn : cr.n = 0
    · rw [if_pos hn]
      rcases hgs : getChunkSize s with ⟨n1, e?, s1⟩
      rcases e? with - | e
      · -- size parsed as n1
        have hp := getChunkSize_ok_parsed s n1 s1 hgs
        by_cases hneg : n1 < 0
        · right
          refine ⟨?_, hn, n1, hp, hneg⟩
          show chunkReadData cr plen n1 s1 = .panic
          exact (chunkReadData_panic_iff cr plen n1 s1).2 hneg
        · left
          show ∃ d e cr2 s2, chunkReadData cr plen n1 s1 = .ok d e cr2 s2
            ∧ d.length ≤ plen ∧ 0 ≤ cr2.n
          exact chunkReadData_ok cr plen n1 s1 (by omega)
      · left
        have hz := getChunkSize_err_zero s n1 e s1 hgs
        exact ⟨[], some e, { cr with n := n1 }, s1, rfl, by simp, by simp [hz]⟩
    · rw [if_neg hn]
      left
      show ∃ d e cr2 s2, chunkReadData cr plen cr.n s = .ok d e cr2 s2
        ∧ d.length ≤ plen ∧ 0 ≤ cr2.n
      exact chunkReadData_ok cr plen cr.n s h0

/-- C9 amended, witness: a concrete positive-size read satisfies the bound. -/
theorem chunkRead_total_amended_witness :
    (0 : Int) ≤ (ChunkReader.mk 0 false).n
  ∧ (∃ d e cr2 s2,
      chunkRead ⟨0, false⟩ 3 (str "5\r\nhello\r\n0\r\n\r\n") = .ok d e cr2 s2
        ∧ d.length ≤ 3 ∧ 0 ≤ cr2.n) := by
  have h := chunkRead_total_amended ⟨0, false⟩ 3 (str "5\r\nhello\r\n0\r\n\r\n")
    (by decide)
  rcases h with h | h
  · exact ⟨by decide, h⟩
  · exact absurd h.1 (by decide)

/-- `ParseInt` rejects the empty string. -/
theorem parseGoInt_nil : parseGoInt [] = none := rfl

/-- C3, counterexample.  The claim requires the wrapper for every parsed
request whose `Expect` header equals `100-continue`; but `setupBody` calls
`fixExpectContinueReader` only in the chunked and parsed-`Content-Length`
branches, so a GET carrying `Expect: 100-continue` gets the bare empty
reader and no wrapper. -/
theorem expect_continue_unwrapped_cex :
    hGet [(str "Expect", str "100-continue")] (str "Expect")
      = str "100-continue"
  ∧ (setupBody (str "GET")
      [(str "Expect", str "100-continue")]).expectWrapped = false := by
  decide

/-- C3, amended.  The wrapper is applied exactly when `Expect` equals
`100-continue` AND the method is POST or PUT AND the framing is chunked or a
`Content-Length` that `ParseInt` accepts; and the wrapper itself, over any
inner reader and any nonempty read sequence, emits the
`HTTP/1.1 100 Continue\r\n\r\n` write-and-flush exactly once — as the very
first event, before any body bytes are delivered, with all later events pure
data deliveries. -/
theorem expect_continue_amended {σ : Type}
    (innerRead : σ → Nat → Str × Option RErr × σ) (st : σ)
    (m : Str) (h : Header) (plens : List Nat) (hne : plens ≠ []) :
    ((setupBody m h).expectWrapped = true ↔
      (expectFlag h = true ∧ (m = str "POST" ∨ m = str "PUT") ∧
        (chunkedHdr h = true ∨
          ∃ v, parseGoInt (hGet h (str "Content-Length")) = some v)))
  ∧ (ecrRun innerRead ⟨false⟩ st plens).2.2.head? = some .wrote100
  ∧ ((ecrRun innerRead ⟨false⟩ st plens).2.2.tail.all Ev.isBody) = true := by
  refine ⟨?_, ?_⟩
  · unfold setupBody
    by_cases hmp : m ≠ str "POST" ∧ m ≠ str "PUT"
    · rw [if_pos hmp]
      simp only [show (BodySel.mk .emptyB false).expectWrapped = false from rfl]
      constructor
      · intro hf; exact absurd hf (by simp)
      · rintro ⟨-, hm, -⟩
        rcases hm with hm | hm
        · exact absurd hm hmp.1
        · exact absurd hm hmp.2
    · rw [if_neg hmp]
      have hm : m = str "POST" ∨ m = str "PUT" := by
        by_cases h1 : m = str "POST"
        · exact Or.inl h1
        · right
          by_contra h2
          exact hmp ⟨h1, h2⟩
      by_cases hch : chunkedHdr h
      · rw [if_pos hch]
        simp only [show (BodySel.mk .chunkedB (expectFlag h)).expectWrapped
          = expectFlag h from rfl]
        constructor
        · intro he; exact ⟨he, hm, Or.inl hch⟩
        · intro hc; exact hc.1
      · rw [if_neg hch]
        by_cases hcl : hGet h (str "Content-Length") ≠ []
        · rw [if_pos hcl]
          rcases hpi : parseGoInt (hGet h (str "Content-Length")) with - | v
          · simp only [show (BodySel.mk .emptyB false).expectWrapped
              = false from rfl]
            constructor
            · intro hf; exact absurd hf (by simp)
            · rintro ⟨-, -, hc | ⟨v, hv⟩⟩
              · exact absurd hc hch
              · exact absurd hv (by simp)
          · simp only [show (BodySel.mk (.limitedB v) (expectFlag h)).expectWrapped
              = expectFlag h from rfl]
            constructor
            · intro he; exact ⟨he, hm, Or.inr ⟨v, rfl⟩⟩
            · intro hc; exact hc.1
        · rw [if_neg hcl]
          have hclv : hGet h (str "Content-Length") = [] := by
            by_contra hx; exact hcl hx
          simp only [show (BodySel.mk .emptyB false).expectWrapped
            = false from rfl]
          constructor
          · intro hf; exact absurd hf (by simp)
          · rintro ⟨-, -, hc | ⟨v, hv⟩⟩
            · exact absurd hc hch
            · rw [hclv, parseGoInt_nil] at hv
              exact absurd hv (by simp)
  · cases plens with
    | nil => exact absurd rfl hne
    | cons p ps =>
      constructor
      · simp [ecrRun, ecrRead]
      · simp [ecrRun, ecrRead, Ev.isBody, ecrRun_wrote_all_body]

/-- C3 amended, witness at a POST with `Content-Length` and a limited inner
reader. -/
theorem expect_continue_amended_witness :
    ([2, 2] : List Nat) ≠ []
  ∧ ((setupBody (str "POST")
        [(str "Content-Length", str "3"),
         (str "Expect", str "100-continue")]).expectWrapped = true ↔
      (expectFlag [(str "Content-Length", str "3"),
          (str "Expect", str "100-continue")] = true ∧
        (str "POST" = str "POST" ∨ str "POST" = str "PUT") ∧
        (chunkedHdr [(str "Content-Length", str "3"),
            (str "Expect", str "100-continue")] = true ∨
          ∃ v, parseGoInt (hGet [(str "Content-Length", str "3"),
            (str "Expect", str "100-continue")] (str "Content-Length"))
              = some v)))
  ∧ (ecrRun (fun (st : Int × Str) plen =>
        let r := limitedRead st.1 plen st.2
        (r.1, r.2.1, (r.2.2.1, r.2.2.2)))
      ⟨false⟩ (3, str "abc") [2, 2]).2.2.head? = some .wrote100 := by
  have h := expect_continue_amended
    (fun (st : Int × Str) plen =>
      let r := limitedRead st.1 plen st.2
      (r.1, r.2.1, (r.2.2.1, r.2.2.2)))
    ((3 : Int), str "abc")
    (str "POST")
    [(str "Content-Length", str "3"), (str "Expect", str "100-continue")]
    [2, 2] (by decide)
  exact ⟨by decide, h.1, h.2.1⟩

/-- C4.  The body reader selection follows the claimed decision procedure, in
order: non-POST/PUT methods get the empty reader; else `Transfer-Encoding:
chunked` selects the chunk reader; else a `Content-Length` parsing as a
non-negative `N` selects the limited reader, which read to exhaustion yields
exactly `N` bytes and then end-of-stream for any positive destination sizes;
in every other case (missing, malformed, or negative `Content-Length`) the
selected reader always reports end-of-stream immediately and consumes
nothing — the behaviour the spec defines for the empty reader.  (`setupBody`
is total, so the body field is never null.) -/
theorem setupBody_decision (m : Str) (h : Header) :
    ((m ≠ str "POST" ∧ m ≠ str "PUT") → (setupBody m h).kind = .emptyB)
  ∧ ((m = str "POST" ∨ m = str "PUT") → chunkedHdr h = true →
      (setupBody m h).kind = .chunkedB)
  ∧ (∀ v : Int, (m = str "POST" ∨ m = str "PUT") → chunkedHdr h = false →
      parseGoInt (hGet h (str "Content-Length")) = some v → 0 ≤ v →
      (setupBody m h).kind = .limitedB v
      ∧ ∀ (s : Str) (sched : Nat → Nat), (∀ i, 0 < sched i) →
          v.toNat ≤ s.length →
          drainLimited v s sched = (s.take v.toNat, 0, s.drop v.toNat))
  ∧ ((m = str "POST" ∨ m = str "PUT") → chunkedHdr h = false →
      (hGet h (str "Content-Length") = [] ∨
        parseGoInt (hGet h (str "Content-Length")) = none ∨
        (∃ v : Int, v < 0 ∧
          parseGoInt (hGet h (str "Content-Length")) = some v)) →
      ∀ (plen : Nat) (s : Str),
        ((setupBody m h).kind = .emptyB
            ∧ emptyRead plen s = ([], some .eof, s))
        ∨ (∃ n : Int, n < 0 ∧ (setupBody m h).kind = .limitedB n ∧
            limitedRead n plen s = ([], some .eof, n, s))) := by
  have notPP : (m = str "POST" ∨ m = str "PUT") →
      ¬(m ≠ str "POST" ∧ m ≠ str "PUT") := by
    rintro (hm | hm) ⟨h1, h2⟩
    · exact h1 hm
    · exact h2 hm
  refine ⟨?_, ?_, ?_, ?_⟩
  · intro hmp
    unfold setupBody
    rw [if_pos hmp]
  · intro hm hch
    unfold setupBody
    rw [if_neg (notPP hm), if_pos hch]
  · intro v hm hch hpi hv0
    have hcl : hGet h (str "Content-Length") ≠ [] := by
      intro hx
      rw [hx, parseGoInt_nil] at hpi
      exact absurd hpi (by simp)
    constructor
    · unfold setupBody
      rw [if_neg (notPP hm), if_neg (by simp [hch]), if_pos hcl]
      simp only [hpi]
    · intro s sched hs hlen
      exact drainLimitedAux_exact _ v s sched 0 hs hv0 hlen (le_refl _)
  · intro hm hch hcase plen s
    rcases hcase with hcl | hpi | ⟨v, hvneg, hpi⟩
    · left
      refine ⟨?_, rfl⟩
      unfold setupBody
      rw [if_neg (notPP hm), if_neg (by simp [hch]), if_neg (by simp [hcl])]
    · left
      have hcl2 : hGet h (str "Content-Length") = [] ∨
          hGet h (str "Content-Length") ≠ [] := by tauto
      refine ⟨?_, rfl⟩
      unfold setupBody
      rcases hcl2 with hcl | hcl
      · rw [if_neg (notPP hm), if_neg (by simp [hch]), if_neg (by simp [hcl])]
      · rw [if_neg (notPP hm), if_neg (by simp [hch]), if_pos hcl]
        simp only [hpi]
    · right
      refine ⟨v, hvneg, ?_, ?_⟩
      · have hcl : hGet h (str "Content-Length") ≠ [] := by
          intro hx
          rw [hx, parseGoInt_nil] at hpi
          exact absurd hpi (by simp)
        unfold setupBody
        rw [if_neg (notPP hm), if_neg (by simp [hch]), if_pos hcl]
        simp only [hpi]
      · unfold limitedRead
        rw [if_pos (le_of_lt hvneg)]

/-- C4, witness: a POST with `Content-Length: 5` gets the 5-byte limited
reader, draining to exactly five bytes on a 2-byte schedule. -/
theorem setupBody_decision_witness :
    ((str "POST" : Str) = str "POST" ∨ (str "POST" : Str) = str "PUT")
  ∧ chunkedHdr [(str "Content-Length", str "5")] = false
  ∧ parseGoInt (hGet [(str "Content-Length", str "5")]
      (str "Content-Length")) = some 5
  ∧ (0 : Int) ≤ 5
  ∧ (setupBody (str "POST") [(str "Content-Length", str "5")]).kind
      = .limitedB 5
  ∧ drainLimited 5 (str "helloXY") (fun _ => 2)
      = (str "hello", 0, str "XY") := by
  have h := (setupBody_decision (str "POST")
    [(str "Content-Length", str "5")]).2.2.1 5
    (Or.inl rfl) (by decide) (by decide) (by decide)
  refine ⟨Or.inl rfl, by decide, by decide, by decide, h.1, ?_⟩
  have h2 := h.2 (str "helloXY") (fun _ => 2) (fun _ => Nat.zero_lt_two) (by decide)
  rw [h2]
  decide

/-- C8, counterexample.  The claim says the decoded query mapping is computed
on the first `Query` call, not during request parsing; but `readRequest`
calls `r.parseQuery()` eagerly, so immediately after parsing — before any
access — the query map is already populated. -/
theorem query_eager_cex :
    ((readRequestB (newConn twoGets)).toOption.map
      (fun rc => rc.1.queryString)) = some (some [(str "x", str "1")]) := by
  decide

/-- C8, amended.  The cookie map alone is lazy: after parsing it is nil, the
first `Cookie` call computes and caches it, and a second access returns the
same view with no recomputation or state change.  The query map is computed
eagerly during `readRequest` (via `parseQuery`) and cached; `Query` is a pure
lookup in that cached map. -/
theorem lazy_maps_amended (c : Conn) (r : Request) (c2 : Conn)
    (name name2 : Str) (h : readRequestB c = .ok (r, c2)) :
    r.queryString = some (parseQuery r.rawQuery)
  ∧ r.cookies = none
  ∧ (cookieGet r name).2.cookies = some (parseCookiesF r.header)
  ∧ cookieGet ((cookieGet r name).2) name2
      = (qLookup (parseCookiesF r.header) name2, (cookieGet r name).2)
  ∧ queryGet r name = qLookup (parseQuery r.rawQuery) name := by
  have hqc : r.queryString = some (parseQuery r.rawQuery)
      ∧ r.cookies = none := by
    unfold readRequestB at h
    repeat' split at h
    all_goals simp only [Except.ok.injEq, Prod.mk.injEq, reduceCtorEq] at h
    obtain ⟨hr, -⟩ := h
    subst hr
    exact ⟨rfl, rfl⟩
  obtain ⟨hq, hc⟩ := hqc
  refine ⟨hq, hc, ?_, ?_, ?_⟩
  · simp [cookieGet, reqParseCookies, hc]
  · simp [cookieGet, reqParseCookies, hc]
  · simp [queryGet, hq]

/-- C8 amended, witness at a GET with one query pair and one cookie. -/
theorem lazy_maps_witness :
    readRequestB (newConn c8input) = .ok (c8Req, c8Conn)
  ∧ c8Req.queryString = some (parseQuery c8Req.rawQuery)
  ∧ c8Req.cookies = none
  ∧ (cookieGet c8Req (str "a")).2.cookies
      = some (parseCookiesF c8Req.header)
  ∧ cookieGet ((cookieGet c8Req (str "a")).2) (str "a")
      = (qLookup (parseCookiesF c8Req.header) (str "a"),
         (cookieGet c8Req (str "a")).2)
  ∧ queryGet c8Req (str "x") = qLookup (parseQuery c8Req.rawQuery) (str "x") := by
  have h := lazy_maps_amended (newConn c8input) c8Req c8Conn
    (str "a") (str "a") (by decide)
  have h2 := lazy_maps_amended (newConn c8input) c8Req c8Conn
    (str "x") (str "x") (by decide)
  exact ⟨by decide, h.1, h.2.1, h.2.2.1, h.2.2.2.1, h2.2.2.2.2⟩

/-- A prefix of a left factor is a prefix of the appended list. -/
theorem isPrefixOf_append_left_iff (pat u v : Str)
    (h : pat.length ≤ u.length) :
    pat.isPrefixOf (u ++ v) = pat.isPrefixOf u := by
  by_cases hp : pat.isPrefixOf u
  · rw [hp]
    rw [List.isPrefixOf_iff_prefix] at hp ⊢
    exact hp.trans (List.prefix_append u v)
  · simp only [Bool.not_eq_true] at hp
    rw [hp]
    by_contra hx
    simp only [Bool.not_eq_false] at hx
    rw [List.isPrefixOf_iff_prefix, List.prefix_iff_eq_take] at hx
    have h2 : pat = u.take pat.length :=
      hx.trans (List.take_append_of_le_length h)
    have h3 : pat.isPrefixOf u = true := by
      rw [List.isPrefixOf_iff_prefix, List.prefix_iff_eq_take]
      exact h2
    rw [h3] at hp
    exact absurd hp (by simp)

/-- A prefix of a take is a prefix of the whole list. -/
theorem isPrefixOf_of_take (pat u : Str) (m : Nat)
    (h : pat.isPrefixOf (u.take m) = true) : pat.isPrefixOf u = true := by
  rw [List.isPrefixOf_iff_prefix] at h ⊢
  exact h.trans (List.take_prefix m u)

/-- Splitting at the newline after an LF-free prefix. -/
theorem splitAtNL_no_nl (l : Str) (rest : Str)
    (h : ∀ c ∈ l, c ≠ '\n') :
    splitAtNL (l ++ '\n' :: rest) = some (l, rest) := by
  induction l with
  | nil => simp [splitAtNL]
  | cons c cs ih =>
    have hc : c ≠ '\n' := h c (by simp)
    simp only [List.cons_append, splitAtNL, if_neg hc]
    rw [show cs.append ('\n' :: rest) = cs ++ '\n' :: rest from rfl,
      ih (fun x hx => h x (by simp [hx]))]

/-- Stripping the carriage return the terminator contributed. -/
theorem stripTrailCR_append_cr (l : Str) :
    stripTrailCR (l ++ ['\r']) = l := by
  unfold stripTrailCR
  rw [List.getLast?_concat]
  simp

/-- `readLine` on a CRLF-terminated, LF-free line. -/
theorem readLine_crlf (l : Str) (rest : Str)
    (h : ∀ c ∈ l, c ≠ '\n') :
    readLine (l ++ '\r' :: '\n' :: rest) = .ok (l, rest) := by
  have hsp : splitAtNL (l ++ '\r' :: '\n' :: rest) = some (l ++ ['\r'], rest) := by
    have := splitAtNL_no_nl (l ++ ['\r']) rest (by
      intro c hc
      rcases List.mem_append.mp hc with hc | hc
      · exact h c hc
      · simp at hc
        rw [hc]
        decide)
    simpa using this
  unfold readLine
  rw [if_neg (by simp), hsp]
  show Except.ok (stripTrailCR (l ++ ['\r']), rest) = Except.ok (l, rest)
  rw [stripTrailCR_append_cr]

/-- The scan reports a hit at the current index. -/
theorem findPatAux_hit (pat s : Str) (i : Nat)
    (h : pat.isPrefixOf s = true) : findPatAux pat s i = some i := by
  unfold findPatAux
  rw [if_pos h]

/-- The scan skips a position with no match. -/
theorem findPatAux_skip (pat : Str) (c : Char) (cs : Str) (i : Nat)
    (h : pat.isPrefixOf (c :: cs) = false) :
    findPatAux pat (c :: cs) i = findPatAux pat cs (i + 1) := by
  conv_lhs => unfold findPatAux
  rw [if_neg (by simp [h])]

/-- `NoEarlyPat` is stable under dropping a content prefix. -/
theorem noEarlyPat_drop (pat c : Str) (k : Nat) (hk : k ≤ c.length)
    (h : NoEarlyPat pat c) : NoEarlyPat pat (c.drop k) := by
  intro j hj
  rw [List.length_drop] at hj
  intro hx
  apply h (k + j) (by omega)
  have heq : (c.drop k ++ pat).drop j = (c ++ pat).drop (k + j) := by
    rw [List.drop_append_of_le_length (by rw [List.length_drop]; omega),
        List.drop_append_of_le_length (by omega), List.drop_drop]
  rw [heq] at hx
  exact hx

/-- With no early occurrence, the scan over `c ++ pat ++ t` first fires
exactly at the delimiter position. -/
theorem findPatAux_boundary (pat : Str) :
    ∀ (c t : Str) (i : Nat), NoEarlyPat pat c →
      findPatAux pat (c ++ (pat ++ t)) i = some (i + c.length) := by
  intro c
  induction c with
  | nil =>
    intro t i _
    simp only [List.nil_append, List.length_nil, Nat.add_zero]
    exact findPatAux_hit pat (pat ++ t) i
      (by rw [List.isPrefixOf_iff_prefix]; exact List.prefix_append pat t)
  | cons x cs ih =>
    intro t i h
    have hhead : pat.isPrefixOf ((x :: cs) ++ (pat ++ t)) = false := by
      by_contra hx
      simp only [Bool.not_eq_false] at hx
      apply h 0 (by simp)
      rw [← List.append_assoc] at hx
      rw [isPrefixOf_append_left_iff pat ((x :: cs) ++ pat) t
        (by simp; omega)] at hx
      simpa using hx
    have hhead2 : pat.isPrefixOf (x :: (cs ++ (pat ++ t))) = false := by
      simpa using hhead
    simp only [List.cons_append]
    rw [findPatAux_skip pat x (cs ++ (pat ++ t)) i hhead2]
    rw [ih t (i + 1) (by
      have := noEarlyPat_drop pat (x :: cs) 1 (by simp) h
      simpa using this)]
    congr 1
    simp
    omega

/-- `findPat` locates the delimiter in the full remaining stream. -/
theorem findPat_boundary (pat c t : Str) (h : NoEarlyPat pat c) :
    findPat pat (c ++ (pat ++ t)) = some c.length := by
  unfold findPat
  rw [findPatAux_boundary pat c t 0 h]
  simp

/-- A scan over a stream with no occurrence reports none. -/
theorem findPatAux_none (pat : Str) (hp : pat ≠ []) :
    ∀ (w : Str) (i : Nat),
      (∀ j, pat.isPrefixOf (w.drop j) = false) →
      findPatAux pat w i = none := by
  intro w
  induction w with
  | nil =>
    intro i _
    unfold findPatAux
    rw [if_neg (by
      intro hx
      have hlen := (List.isPrefixOf_iff_prefix.mp hx).length_le
      simp only [List.length_nil, Nat.le_zero] at hlen
      exact hp (List.eq_nil_of_length_eq_zero hlen))]
  | cons x cs ih =>
    intro i h
    rw [findPatAux_skip pat x cs i (by simpa using h 0)]
    exact ih (i + 1) (fun j => by simpa using h (j + 1))

/-- The peek window of a stream whose delimiter begins within it. -/
theorem window_take_found (pat c t : Str)
    (h : c.length + pat.length ≤ 4096) :
    (c ++ (pat ++ t)).take 4096
      = c ++ (pat ++ t.take (4096 - c.length - pat.length)) := by
  rw [List.take_append_eq_append_take, List.take_of_length_le (by omega),
    List.take_append_eq_append_take, List.take_of_length_le (by omega)]

/-- When the delimiter cannot fit inside the window, the window scan finds
nothing. -/
theorem findPat_window_none (pat c t : Str) (hp : pat ≠ [])
    (hne : NoEarlyPat pat c) (hbig : 4096 < c.length + pat.length) :
    findPat pat ((c ++ (pat ++ t)).take 4096) = none := by
  unfold findPat
  apply findPatAux_none pat hp
  intro j
  by_contra hx
  simp only [Bool.not_eq_false] at hx
  rw [List.drop_take] at hx
  have hx2 := isPrefixOf_of_take _ _ _ hx
  have hlen : pat.length ≤ 4096 - j := by
    have hpre := List.isPrefixOf_iff_prefix.mp hx
    have h1 := hpre.length_le
    rw [List.length_take] at h1
    omega
  have hplen : 0 < pat.length := List.length_pos.mpr hp
  have hj : j < c.length := by omega
  apply hne j hj
  rw [← List.append_assoc, List.drop_append_of_le_length
    (by rw [List.length_append]; omega)] at hx2
  rw [isPrefixOf_append_left_iff pat _ t
    (by rw [List.length_drop, List.length_append]; omega)] at hx2
  exact hx2

/-- `Part.Read` with an installed substitute delegates to it. -/
theorem partRead_subst (cf : MPConf) (mp : MPState) (hd : Header) (n : Int)
    (plen : Nat) :
    partRead cf mp ⟨hd, false, some n⟩ plen
      = substRead n plen mp ⟨hd, false, some n⟩ := by
  rfl

/-- `substRead` overwrites the substitute field without reading it. -/
theorem substRead_subst_irrel (n : Int) (plen : Nat) (mp : MPState)
    (hd : Header) (cl : Bool) (o1 o2 : Option Int) :
    substRead n plen mp ⟨hd, cl, o1⟩ = substRead n plen mp ⟨hd, cl, o2⟩ := by
  rfl

/-- Draining a part through an installed substitute of `m` bytes (within the
source) yields exactly those bytes and then `io.EOF`, leaving the source at
the delimiter position. -/
theorem readPartFull_subst (cf : MPConf) (sched : Nat → Nat)
    (hs : ∀ j, 0 < sched j) :
    ∀ (fuel m : Nat) (s : Str) (b : Bool) (hd : Header) (i : Nat),
      m ≤ s.length → m + 1 ≤ fuel →
      ∃ i2, readPartFullAux fuel cf ⟨s, b⟩ ⟨hd, false, some (m : Int)⟩ sched i
        = some (s.take m, .eof, ⟨s.drop m, b⟩, ⟨hd, false, some 0⟩, i2) := by
  intro fuel
  induction fuel with
  | zero => intro m s b hd i _ hf; omega
  | succ fuel ih =>
    intro m s b hd i hm hf
    rcases Nat.eq_zero_or_pos m with hm0 | hmpos
    · subst hm0
      refine ⟨i + 1, ?_⟩
      have hpr : partRead cf ⟨s, b⟩ ⟨hd, false, some ((0 : Nat) : Int)⟩ (sched i)
          = .ok [] (some .eof) ⟨s, b⟩ ⟨hd, false, some ((0 : Nat) : Int)⟩ := by
        rw [partRead_subst]
        unfold substRead
        rw [if_pos (by simp)]
      unfold readPartFullAux
      rw [hpr]
      simp
    · have hsne : s ≠ [] := by
        intro hx
        subst hx
        simp at hm
        omega
      set k := min (min (sched i) m) s.length with hkeq
      have hk1 : 0 < k := by
        have h2 : 0 < s.length := by
          cases s with
          | nil => exact absurd rfl hsne
          | cons a l => simp
        exact lt_min (lt_min (hs i) hmpos) h2
      have hkm : k ≤ m := le_trans (min_le_left _ _) (min_le_right _ _)
      have hks : k ≤ s.length := min_le_right _ _
      have hpr : partRead cf ⟨s, b⟩ ⟨hd, false, some (m : Int)⟩ (sched i)
          = .ok (s.take k) none ⟨s.drop k, b⟩
              ⟨hd, false, some ((m - k : Nat) : Int)⟩ := by
        rw [partRead_subst]
        unfold substRead
        rw [if_neg (by omega), if_neg hsne]
        simp only [Int.toNat_natCast]
        rw [← hkeq]
        have hc : (m : Int) - (k : Int) = ((m - k : Nat) : Int) := by omega
        rw [hc]
      obtain ⟨i2, hrec⟩ := ih (m - k) (s.drop k) b hd (i + 1)
        (by rw [List.length_drop]; omega) (by omega)
      refine ⟨i2, ?_⟩
      unfold readPartFullAux
      rw [hpr]
      show (match readPartFullAux fuel cf ⟨s.drop k, b⟩
          ⟨hd, false, some ((m - k : Nat) : Int)⟩ sched (i + 1) with
        | some r => some (s.take k ++ r.1, r.2.1, r.2.2.1, r.2.2.2.1, r.2.2.2.2)
        | none => none) = _
      rw [hrec]
      have h2 : (s.drop k).drop (m - k) = s.drop m := by
        rw [List.drop_drop]
        congr 1
        omega
      have h1 : s.take m = s.take k ++ (s.drop k).take (m - k) := by
        rw [← List.take_add]
        congr 1
        omega
      rw [h2, h1]

/-- A loop step whose first read installs a substitute of `m` bytes equals
the loop started from the installed state. -/
theorem readPartFull_install_eq (fuel : Nat) (cf : MPConf) (mp mp2 : MPState)
    (hd : Header) (sched : Nat → Nat) (i m : Nat)
    (hinstall : partRead cf mp ⟨hd, false, none⟩ (sched i)
      = substRead (m : Int) (sched i) mp2 ⟨hd, false, none⟩) :
    readPartFullAux (fuel + 1) cf mp ⟨hd, false, none⟩ sched i
      = readPartFullAux (fuel + 1) cf mp2 ⟨hd, false, some (m : Int)⟩
          sched i := by
  conv_lhs => unfold readPartFullAux
  conv_rhs => unfold readPartFullAux
  rw [hinstall,
    substRead_subst_irrel (m : Int) (sched i) mp2 hd false none
      (some (m : Int)),
    ← partRead_subst]

/-- With the EOF flag recorded, `Part.Read` installs the substitute at the
index found by the whole-buffer scan. -/
theorem partRead_eval_eofTrue (cf : MPConf) (s : Str) (hd : Header)
    (plen m : Nat) (hfind : findPat cf.crlfDashBoundary s = some m) :
    partRead cf ⟨s, true⟩ ⟨hd, false, none⟩ plen
      = substRead (m : Int) plen ⟨s, true⟩ ⟨hd, false, none⟩ := by
  show partReadAux 2 cf ⟨s, true⟩ ⟨hd, false, none⟩ plen = _
  unfold partReadAux
  simp [hfind]

/-- Without the flag and with a full window available, a window hit installs
the substitute at the found index. -/
theorem partRead_eval_big_found (cf : MPConf) (s : Str) (hd : Header)
    (plen m : Nat) (hlen : 4096 ≤ s.length)
    (hfind : findPat cf.crlfDashBoundary (s.take 4096) = some m) :
    partRead cf ⟨s, false⟩ ⟨hd, false, none⟩ plen
      = substRead (m : Int) plen ⟨s, false⟩ ⟨hd, false, none⟩ := by
  show partReadAux 2 cf ⟨s, false⟩ ⟨hd, false, none⟩ plen = _
  unfold partReadAux
  simp [hfind, hlen]

/-- Without the flag and with a short source, `Part.Read` records the EOF and
retries once with the flag set. -/
theorem partRead_eval_small (cf : MPConf) (s : Str) (hd : Header)
    (plen : Nat) (hlen : s.length < 4096) :
    partRead cf ⟨s, false⟩ ⟨hd, false, none⟩ plen
      = partReadAux 1 cf ⟨s, true⟩ ⟨hd, false, none⟩ plen := by
  show partReadAux 2 cf ⟨s, false⟩ ⟨hd, false, none⟩ plen = _
  conv_lhs => unfold partReadAux
  simp only [show (PartSt.mk hd false none).closed = false from rfl,
    show (PartSt.mk hd false none).subst = none from rfl,
    show (MPState.mk s false).occurEof = false from rfl,
    Bool.false_eq_true, if_false]
  rw [if_neg (by omega : ¬(4096 ≤ s.length))]

/-- `partReadAux 1` with the flag set behaves as the full reader (the fuel
only feeds the retry, which the set flag forecloses). -/
theorem partReadAux_one_eofTrue (cf : MPConf) (s : Str) (p : PartSt)
    (plen : Nat) :
    partReadAux 1 cf ⟨s, true⟩ p plen = partRead cf ⟨s, true⟩ p plen := by
  show _ = partReadAux 2 cf ⟨s, true⟩ p plen
  by_cases hcl : p.closed
  · unfold partReadAux
    simp [hcl]
  · rcases hsub : p.subst with - | n
    · conv_lhs => unfold partReadAux
      conv_rhs => unfold partReadAux
      simp [hcl, hsub]
    · unfold partReadAux
      simp [hcl, hsub]

/-- Without the flag, a full window with no hit returns a capped slice that
keeps every possible delimiter start inside the buffer. -/
theorem partRead_eval_big_notfound (cf : MPConf) (s : Str) (hd : Header)
    (plen : Nat) (hlen : 4096 ≤ s.length)
    (hp2 : cf.crlfDashBoundary.length ≤ 4096)
    (hfind : findPat cf.crlfDashBoundary (s.take 4096) = none) :
    partRead cf ⟨s, false⟩ ⟨hd, false, none⟩ plen
      = .ok (s.take (min (min plen (4097 - cf.crlfDashBoundary.length))
            s.length))
          none
          ⟨s.drop (min (min plen (4097 - cf.crlfDashBoundary.length))
            s.length), false⟩
          ⟨hd, false, none⟩ := by
  show partReadAux 2 cf ⟨s, false⟩ ⟨hd, false, none⟩ plen = _
  conv_lhs => unfold partReadAux
  simp only [show (PartSt.mk hd false none).closed = false from rfl,
    show (PartSt.mk hd false none).subst = none from rfl,
    show (MPState.mk s false).occurEof = false from rfl,
    Bool.false_eq_true, if_false, hfind, if_pos hlen]
  have hmraw : ((4096 : Int) - cf.crlfDashBoundary.length + 1)
      = ((4097 - cf.crlfDashBoundary.length : Nat) : Int) := by omega
  rw [hmraw]
  have hmr : (if (plen : Int) < ((4097 - cf.crlfDashBoundary.length : Nat) : Int)
      then (plen : Int) else ((4097 - cf.crlfDashBoundary.length : Nat) : Int))
      = ((min plen (4097 - cf.crlfDashBoundary.length) : Nat) : Int) := by
    split <;> omega
  rw [hmr]
  rw [if_neg (by omega :
    ¬ ((min plen (4097 - cf.crlfDashBoundary.length) : Nat) : Int) < 0)]
  simp only [Int.toNat_natCast]

/-- Reading a fresh part whose source holds `content ++ delimiter ++ rest`
(with no early delimiter hit possible) to exhaustion yields exactly the
content and then `io.EOF`, leaving the source at the delimiter. -/
theorem readPartFull_content (cf : MPConf) (sched : Nat → Nat)
    (hs : ∀ j, 0 < sched j)
    (hp1 : cf.crlfDashBoundary ≠ [])
    (hp2 : cf.crlfDashBoundary.length ≤ 4096) :
    ∀ (fuel : Nat) (c t : Str) (b : Bool) (hd : Header) (i : Nat),
      NoEarlyPat cf.crlfDashBoundary c →
      c.length + 2 ≤ fuel →
      ∃ b2 i2, readPartFullAux fuel cf
          ⟨c ++ (cf.crlfDashBoundary ++ t), b⟩ ⟨hd, false, none⟩ sched i
        = some (c, .eof, ⟨cf.crlfDashBoundary ++ t, b2⟩,
            ⟨hd, false, some 0⟩, i2) := by
  intro fuel
  induction fuel with
  | zero => intro c t b hd i _ hf; omega
  | succ fuel ih =>
    intro c t b hd i hne hf
    have hinstallDone : ∀ (b' : Bool),
        partRead cf ⟨c ++ (cf.crlfDashBoundary ++ t), b⟩
            ⟨hd, false, none⟩ (sched i)
          = substRead (c.length : Int) (sched i)
              ⟨c ++ (cf.crlfDashBoundary ++ t), b'⟩ ⟨hd, false, none⟩ →
        ∃ b2 i2, readPartFullAux (fuel + 1) cf
            ⟨c ++ (cf.crlfDashBoundary ++ t), b⟩ ⟨hd, false, none⟩ sched i
          = some (c, .eof, ⟨cf.crlfDashBoundary ++ t, b2⟩,
              ⟨hd, false, some 0⟩, i2) := by
      intro b' hin
      rw [readPartFull_install_eq fuel cf _ _ hd sched i c.length hin]
      obtain ⟨i2, hrec⟩ := readPartFull_subst cf sched hs (fuel + 1) c.length
        (c ++ (cf.crlfDashBoundary ++ t)) b' hd i
        (by simp) (by omega)
      refine ⟨b', i2, ?_⟩
      rw [hrec, List.take_left, List.drop_left]
    cases b with
    | true =>
      exact hinstallDone true (partRead_eval_eofTrue cf _ hd (sched i)
        c.length (findPat_boundary cf.crlfDashBoundary c t hne))
    | false =>
      by_cases hbig : 4096 ≤ (c ++ (cf.crlfDashBoundary ++ t)).length
      · by_cases hcfit : c.length + cf.crlfDashBoundary.length ≤ 4096
        · have hfind : findPat cf.crlfDashBoundary
              ((c ++ (cf.crlfDashBoundary ++ t)).take 4096) = some c.length := by
            rw [window_take_found cf.crlfDashBoundary c t hcfit]
            exact findPat_boundary cf.crlfDashBoundary c _ hne
          exact hinstallDone false (partRead_eval_big_found cf _ hd (sched i)
            c.length hbig hfind)
        · have hfind : findPat cf.crlfDashBoundary
              ((c ++ (cf.crlfDashBoundary ++ t)).take 4096) = none :=
            findPat_window_none cf.crlfDashBoundary c t hp1 hne (by omega)
          have hpr := partRead_eval_big_notfound cf
            (c ++ (cf.crlfDashBoundary ++ t)) hd (sched i) hbig hp2 hfind
          set k := min (min (sched i) (4097 - cf.crlfDashBoundary.length))
            (c ++ (cf.crlfDashBoundary ++ t)).length with hkeq
          have hklen : (c ++ (cf.crlfDashBoundary ++ t)).length
              = c.length + (cf.crlfDashBoundary.length + t.length) := by
            simp
          have hk1 : 0 < k := by
            refine lt_min (lt_min (hs i) (by omega)) (by omega)
          have hkc : k ≤ c.length := by
            have h1 : k ≤ 4097 - cf.crlfDashBoundary.length :=
              le_trans (min_le_left _ _) (min_le_right _ _)
            omega
          have htake : (c ++ (cf.crlfDashBoundary ++ t)).take k = c.take k :=
            List.take_append_of_le_length (by omega)
          have hdrop : (c ++ (cf.crlfDashBoundary ++ t)).drop k
              = c.drop k ++ (cf.crlfDashBoundary ++ t) :=
            List.drop_append_of_le_length (by omega)
          unfold readPartFullAux
          rw [hpr, htake, hdrop]
          obtain ⟨b2, i2, hrec⟩ := ih (c.drop k) t false hd (i + 1)
            (noEarlyPat_drop cf.crlfDashBoundary c k (by omega) hne)
            (by rw [List.length_drop]; omega)
          refine ⟨b2, i2, ?_⟩
          show (match readPartFullAux fuel cf
              ⟨c.drop k ++ (cf.crlfDashBoundary ++ t), false⟩
              ⟨hd, false, none⟩ sched (i + 1) with
            | some r => some (c.take k ++ r.1, r.2.1, r.2.2.1,
                r.2.2.2.1, r.2.2.2.2)
            | none => none) = _
          rw [hrec]
          show some (c.take k ++ c.drop k, RErr.eof,
              (⟨cf.crlfDashBoundary ++ t, b2⟩ : MPState),
              (⟨hd, false, some 0⟩ : PartSt), i2) = _
          rw [List.take_append_drop]
      · have hsmall : (c ++ (cf.crlfDashBoundary ++ t)).length < 4096 := by
          omega
        have hstep := partRead_eval_small cf
          (c ++ (cf.crlfDashBoundary ++ t)) hd (sched i) hsmall
        rw [partReadAux_one_eofTrue] at hstep
        exact hinstallDone true (hstep.trans
          (partRead_eval_eofTrue cf _ hd (sched i) c.length
            (findPat_boundary cf.crlfDashBoundary c t hne)))

/-- Closing an already-drained part (substitute exhausted at 0) emits nil,
consumes nothing, and marks the part closed. -/
theorem partClose_consumed (cf : MPConf) (s : Str) (b : Bool) (hd : Header) :
    partClose cf ⟨s, b⟩ ⟨hd, false, some 0⟩
      = some (none, ⟨s, b⟩, ⟨hd, true, some 0⟩) := by
  unfold partClose
  rw [if_neg (by simp)]
  obtain ⟨i2, hrec⟩ := readPartFull_subst cf (fun _ => 32768)
    (fun _ => by norm_num) (s.length + 2) 0 s b hd 0 (by simp) (by omega)
  simp only [Nat.cast_zero, List.take_zero, List.drop_zero] at hrec
  rw [hrec]
  simp

/-- Closing a closed part returns nil immediately and consumes nothing. -/
theorem partClose_closed (cf : MPConf) (mp : MPState) (hd : Header)
    (o : Option Int) :
    partClose cf mp ⟨hd, true, o⟩ = some (none, mp, ⟨hd, true, o⟩) := by
  unfold partClose
  rw [if_pos rfl]

/-- Reading a closed part reports zero bytes and `io.EOF`, changing
nothing. -/
theorem partRead_closed (cf : MPConf) (mp : MPState) (hd : Header)
    (o : Option Int) (plen : Nat) :
    partRead cf mp ⟨hd, true, o⟩ plen = .ok [] (some .eof) mp ⟨hd, true, o⟩ := by
  show partReadAux 2 cf mp ⟨hd, true, o⟩ plen = _
  unfold partReadAux
  rw [if_pos rfl]

/-- First close of a fresh part under the content invariant drains exactly
the remaining content, leaving the source at the delimiter. -/
theorem partClose_fresh (cf : MPConf)
    (hp1 : cf.crlfDashBoundary ≠ [])
    (hp2 : cf.crlfDashBoundary.length ≤ 4096)
    (c t : Str) (b : Bool) (hd : Header)
    (hne : NoEarlyPat cf.crlfDashBoundary c) :
    ∃ b2, partClose cf ⟨c ++ (cf.crlfDashBoundary ++ t), b⟩ ⟨hd, false, none⟩
      = some (none, ⟨cf.crlfDashBoundary ++ t, b2⟩, ⟨hd, true, some 0⟩) := by
  unfold partClose
  rw [if_neg (by simp)]
  obtain ⟨b2, i2, hrec⟩ := readPartFull_content cf (fun _ => 32768)
    (fun _ => by norm_num) hp1 hp2
    ((c ++ (cf.crlfDashBoundary ++ t)).length + 2) c t b hd 0 hne
    (by simp only [List.length_append]; omega)
  refine ⟨b2, ?_⟩
  rw [hrec]
  simp

/-- The four patterns `NewMultipartReader` slices out of
`"\r\n--" ++ B ++ "--"`. -/
theorem mkMP_eq (B : Str) :
    mkMP B = ⟨str "\r\n--" ++ B, str "\r\n--" ++ B ++ str "--",
      str "--" ++ B, str "--" ++ B ++ str "--"⟩ := by
  unfold mkMP
  have hb : (str "\r\n--" ++ B ++ str "--").length = B.length + 6 := by
    simp [str]
  have hcd : (str "\r\n--" ++ B ++ str "--").take
      ((str "\r\n--" ++ B ++ str "--").length - 2) = str "\r\n--" ++ B := by
    rw [hb]
    exact List.take_left' (by simp [str])
  have hdd : (str "\r\n--" ++ B ++ str "--").drop 2
      = str "--" ++ B ++ str "--" := by
    show (('\r' :: '\n' :: str "--" ++ B) ++ str "--").drop 2 = _
    simp [str]
  have hdb : ((str "\r\n--" ++ B ++ str "--").drop 2).take
      ((str "\r\n--" ++ B ++ str "--").length - 4) = str "--" ++ B := by
    rw [hdd, hb]
    exact List.take_left' (by simp [str])
  rw [MPConf.mk.injEq]
  exact ⟨hcd, rfl, hdb, hdd⟩

/-- `readHeader`'s loop consumes exactly a block of nonempty LF-free header
lines and the following blank line. -/
theorem readHeaderAux_block :
    ∀ (hl : List Str) (fuel : Nat) (acc : Header) (tail : Str),
      (∀ l ∈ hl, l ≠ [] ∧ ∀ c ∈ l, c ≠ '\n') →
      hl.length + 1 ≤ fuel →
      ∃ hm, readHeaderAux fuel acc (hdrBlock hl ++ ('\r' :: '\n' :: tail))
        = .ok (hm, tail) := by
  intro hl
  induction hl with
  | nil =>
    intro fuel acc tail _ hf
    cases fuel with
    | zero => omega
    | succ fuel =>
      refine ⟨acc, ?_⟩
      show readHeaderAux (fuel + 1) acc ([] ++ ('\r' :: '\n' :: tail)) = _
      rw [List.nil_append,
        show ('\r' :: '\n' :: tail) = [] ++ '\r' :: '\n' :: tail from rfl]
      simp only [readHeaderAux, readLine_crlf [] tail (by simp), if_true]
  | cons l hl ih =>
    intro fuel acc tail hh fuelh
    cases fuel with
    | zero => omega
    | succ fuel =>
      have hl1 := hh l (by simp)
      have hstream : hdrBlock (l :: hl) ++ ('\r' :: '\n' :: tail)
          = l ++ '\r' :: '\n' :: (hdrBlock hl ++ ('\r' :: '\n' :: tail)) := by
        show (l ++ str "\r\n" ++ hdrBlock hl) ++ _ = _
        simp [str]
      rw [hstream]
      simp only [readHeaderAux, readLine_crlf l _ hl1.2, if_neg hl1.1]
      simp only [List.length_cons] at fuelh
      have hrest : ∀ acc2, ∃ hm, readHeaderAux fuel acc2
          (hdrBlock hl ++ ('\r' :: '\n' :: tail)) = .ok (hm, tail) :=
        fun acc2 => ih fuel acc2 tail
          (fun x hx => hh x (by simp [hx])) (by omega)
      rcases hidx : l.findIdx? (fun c => c = ':') with - | j
      · exact hrest acc
      · show ∃ hm, (if j = l.length - 1
            then readHeaderAux fuel acc (hdrBlock hl ++ '\r' :: '\n' :: tail)
            else readHeaderAux fuel
              (acc ++ [(l.take j, trimSpace (l.drop (j + 1)))])
              (hdrBlock hl ++ '\r' :: '\n' :: tail)) = Except.ok (hm, tail)
        by_cases hj : j = l.length - 1
        · rw [if_pos hj]
          exact hrest acc
        · rw [if_neg hj]
          exact hrest _

/-- Header blocks are at least as long as their line count. -/
theorem hdrBlock_length_ge (hl : List Str) :
    hl.length ≤ (hdrBlock hl).length := by
  induction hl with
  | nil => simp [hdrBlock]
  | cons l hl ih =>
    show (l :: hl).length ≤ (l ++ str "\r\n" ++ hdrBlock hl).length
    simp only [List.length_cons, List.length_append]
    have : (str "\r\n").length = 2 := rfl
    omega

/-- The encoded tail is at least as long as its part count. -/
theorem segsFrom_length_ge (B : Str) (ps : List MPart) :
    ps.length ≤ (segsFrom B ps).length := by
  induction ps with
  | nil => simp [segsFrom, str]
  | cons p ps ih =>
    show (p :: ps).length
      ≤ (str "\r\n" ++ partSeg p ++ str "\r\n--" ++ B ++ segsFrom B ps).length
    simp only [List.length_cons, List.length_append]
    have h1 : (str "\r\n").length = 2 := rfl
    have h2 : (str "\r\n--").length = 4 := rfl
    omega

/-- The final boundary line closes the iteration with `io.EOF`. -/
theorem nextPartLine_end (B : Str) (b : Bool)
    (hB3 : ∀ ch ∈ B, ch ≠ '\r' ∧ ch ≠ '\n') :
    nextPartLine (mkMP B) ⟨str "--" ++ B ++ segsFrom B [], b⟩
      = .eofEnd ⟨[], b⟩ := by
  have hchars : ∀ c ∈ str "--" ++ B ++ str "--", c ≠ '\n' := by
    intro c hc
    rcases List.mem_append.mp hc with hc | hc
    · rcases List.mem_append.mp hc with hc | hc
      · simp [str] at hc
        subst hc
        decide
      · exact (hB3 c hc).2
    · simp [str] at hc
      subst hc
      decide
  have hstream : str "--" ++ B ++ segsFrom B []
      = (str "--" ++ B ++ str "--") ++ ('\r' :: '\n' :: ([] : Str)) := by
    show _ ++ str "--\r\n" = _
    simp [str]
  unfold nextPartLine
  rw [hstream, readLine_crlf _ _ hchars]
  simp only [mkMP_eq]
  rw [if_pos trivial]

/-- A plain boundary line opens the next part: its headers are consumed and
the source is left at the part's content. -/
theorem nextPartLine_part (B : Str) (b : Bool) (p : MPart) (ps2 : List MPart)
    (hB3 : ∀ ch ∈ B, ch ≠ '\r' ∧ ch ≠ '\n')
    (hhd : ∀ l ∈ p.headers, l ≠ [] ∧ ∀ c ∈ l, c ≠ '\n') :
    ∃ hm, nextPartLine (mkMP B) ⟨str "--" ++ B ++ segsFrom B (p :: ps2), b⟩
      = .okP ⟨hm, false, none⟩
          ⟨p.content ++ ((str "\r\n--" ++ B) ++ segsFrom B ps2), b⟩ := by
  have hchars : ∀ c ∈ str "--" ++ B, c ≠ '\n' := by
    intro c hc
    rcases List.mem_append.mp hc with hc | hc
    · simp [str] at hc
      subst hc
      decide
    · exact (hB3 c hc).2
  have hstream : str "--" ++ B ++ segsFrom B (p :: ps2)
      = (str "--" ++ B) ++ ('\r' :: '\n' ::
          (hdrBlock p.headers ++ ('\r' :: '\n' ::
            (p.content ++ ((str "\r\n--" ++ B) ++ segsFrom B ps2))))) := by
    show _ ++ (str "\r\n" ++ partSeg p ++ str "\r\n--" ++ B ++ segsFrom B ps2)
      = _
    unfold partSeg
    simp [str]
  have hne : (str "--" ++ B : Str) ≠ str "--" ++ B ++ str "--" := by
    intro hx
    have := congrArg List.length hx
    simp [str] at this
  obtain ⟨hm, hhdr⟩ := readHeaderAux_block p.headers
    ((hdrBlock p.headers ++ ('\r' :: '\n' ::
      (p.content ++ ((str "\r\n--" ++ B) ++ segsFrom B ps2)))).length + 1)
    [] (p.content ++ ((str "\r\n--" ++ B) ++ segsFrom B ps2)) hhd
    (by
      simp only [List.length_append]
      have := hdrBlock_length_ge p.headers
      omega)
  refine ⟨hm, ?_⟩
  unfold nextPartLine readHeader
  rw [hstream, readLine_crlf _ _ hchars]
  simp only [mkMP_eq, if_neg hne, hhdr]
  simp

/-- `discardCRLF` on a source that does begin with CRLF consumes the two
bytes and reports no error. -/
theorem mpDiscardCRLF_crlf (rest : Str) (bb : Bool) :
    mpDiscardCRLF ⟨'\r' :: '\n' :: rest, bb⟩ = (none, ⟨rest, bb⟩) := by
  unfold mpDiscardCRLF
  simp

/-- Calling `NextPart` with a fully-drained current part on a source sitting
at `\r\n--B…` closes the part without consuming bytes, discards the CRLF and
proceeds to the boundary-line dispatch. -/
theorem nextPart_shapeB (B X : Str) (bb : Bool) (hd : Header) :
    nextPart (mkMP B) ⟨str "\r\n--" ++ B ++ X, bb⟩ (some ⟨hd, false, some 0⟩)
      = nextPartLine (mkMP B) ⟨str "--" ++ B ++ X, bb⟩ := by
  unfold nextPart
  show (match partClose (mkMP B) ⟨str "\r\n--" ++ B ++ X, bb⟩
      ⟨hd, false, some 0⟩ with
    | none => NPRes.panic
    | some (some e, mp2, _) => NPRes.fail e mp2
    | some (none, mp2, _) =>
      match mpDiscardCRLF mp2 with
      | (some e, mp3) => NPRes.fail e mp3
      | (none, mp3) => nextPartLine (mkMP B) mp3) = _
  rw [partClose_consumed]
  show (match mpDiscardCRLF ⟨str "\r\n--" ++ B ++ X, bb⟩ with
    | (some e, mp3) => NPRes.fail e mp3
    | (none, mp3) => nextPartLine (mkMP B) mp3) = _
  have hsplit : (str "\r\n--" ++ B ++ X : Str)
      = '\r' :: '\n' :: (str "--" ++ B ++ X) := by
    simp [str]
  rw [hsplit, mpDiscardCRLF_crlf]

/-- The `NextPart`/`Part.Read` iteration over a well-formed encoded tail
returns every part's content with `io.EOF` and finishes with the final
delimiter, from either entry shape (summarised by the `nextPart`
hypothesis). -/
theorem mpRunAux_loop (B : Str) (sched : Nat → Nat)
    (hs : ∀ j, 0 < sched j)
    (hB2 : B.length + 4 ≤ 4096)
    (hB3 : ∀ ch ∈ B, ch ≠ '\r' ∧ ch ≠ '\n') :
    ∀ (ps : List MPart) (fuel : Nat) (bb : Bool) (i : Nat)
      (mp : MPState) (cur : Option PartSt),
      (∀ p ∈ ps, (∀ l ∈ p.headers, l ≠ [] ∧ ∀ ch ∈ l, ch ≠ '\r' ∧ ch ≠ '\n')
        ∧ NoEarlyPat (str "\r\n--" ++ B) p.content) →
      nextPart (mkMP B) mp cur
        = nextPartLine (mkMP B) ⟨str "--" ++ B ++ segsFrom B ps, bb⟩ →
      ps.length + 1 ≤ fuel →
      mpRunAux fuel (mkMP B) mp cur sched i
        = some (ps.map (fun p => (p.content, RErr.eof)), true) := by
  have hcb : (mkMP B).crlfDashBoundary = str "\r\n--" ++ B := by
    rw [mkMP_eq]
  intro ps
  induction ps with
  | nil =>
    intro fuel bb i mp cur _ hnp hf
    cases fuel with
    | zero => simp at hf
    | succ fuel =>
      unfold mpRunAux
      rw [hnp, nextPartLine_end B bb hB3]
      rfl
  | cons p ps2 ih =>
    intro fuel bb i mp cur hps hnp hf
    cases fuel with
    | zero => simp at hf
    | succ fuel =>
      obtain ⟨hphd, hpne⟩ := hps p (List.mem_cons_self _ _)
      have hhd : ∀ l ∈ p.headers, l ≠ [] ∧ ∀ c ∈ l, c ≠ '\n' := fun l hl =>
        ⟨(hphd l hl).1, fun c hc => ((hphd l hl).2 c hc).2⟩
      obtain ⟨hm, hnl⟩ := nextPartLine_part B bb p ps2 hB3 hhd
      unfold mpRunAux
      rw [hnp, hnl]
      show (match readPartFullAux
          ((p.content ++ ((str "\r\n--" ++ B) ++ segsFrom B ps2)).length + 2)
          (mkMP B) ⟨p.content ++ ((str "\r\n--" ++ B) ++ segsFrom B ps2), bb⟩
          ⟨hm, false, none⟩ sched i with
        | none => none
        | some r =>
          match mpRunAux fuel (mkMP B) r.2.2.1 (some r.2.2.2.1) sched
              r.2.2.2.2 with
          | some rest => some ((r.1, r.2.1) :: rest.1, rest.2)
          | none => none)
        = some (((p :: ps2).map fun q => (q.content, RErr.eof)), true)
      obtain ⟨b2, i2, hrec⟩ := readPartFull_content (mkMP B) sched hs
        (by rw [hcb]; simp [str])
        (by rw [hcb]; simp only [List.length_append]
            have : (str "\r\n--").length = 4 := rfl
            omega)
        ((p.content ++ ((str "\r\n--" ++ B) ++ segsFrom B ps2)).length + 2)
        p.content (segsFrom B ps2) bb hm i
        (by rw [hcb]; exact hpne)
        (by simp only [List.length_append]; omega)
      rw [hcb] at hrec
      rw [hrec]
      show (match mpRunAux fuel (mkMP B)
          ⟨(str "\r\n--" ++ B) ++ segsFrom B ps2, b2⟩
          (some ⟨hm, false, some 0⟩) sched i2 with
        | some rest => some ((p.content, RErr.eof) :: rest.1, rest.2)
        | none => none) = _
      rw [ih fuel b2 i2 _ _
        (fun q hq => hps q (List.mem_cons_of_mem _ hq))
        (nextPart_shapeB B (segsFrom B ps2) b2 hm)
        (by simp only [List.length_cons] at hf; omega)]
      rfl

/-- C6.  Multipart totality: for every well-formed multipart body with
boundary `B` and parts `P1..Pk`, iterating `NextPart` yields exactly the `k`
parts in order, reading each returned part to exhaustion yields exactly its
content bytes followed by `io.EOF` for any destination-size schedule, and
the `(k+1)`-th `NextPart` call returns `io.EOF`. -/
theorem multipart_totality (B : Str) (ps : List MPart) (sched : Nat → Nat)
    (hw : WellFormedMP B ps) (hs : ∀ j, 0 < sched j) :
    mpRun B (encodeMP B ps) sched
      = some (ps.map (fun p => (p.content, RErr.eof)), true) := by
  obtain ⟨_, hB2, hB3, hps⟩ := hw
  unfold mpRun
  exact mpRunAux_loop B sched hs hB2 hB3 ps ((encodeMP B ps).length + 1)
    false 0 ⟨encodeMP B ps, false⟩ none hps rfl
    (by
      have h1 := segsFrom_length_ge B ps
      show ps.length + 1 ≤ (str "--" ++ B ++ segsFrom B ps).length + 1
      simp only [List.length_append]
      omega)

/-- C6, witness: a two-part body with boundary `bnd`, read with 3-byte
destinations, returns both contents with `io.EOF` and ends cleanly. -/
theorem multipart_totality_witness :
    WellFormedMP (str "bnd") [⟨[str "A: b"], str "hello"⟩, ⟨[], str "wo"⟩]
    ∧ mpRun (str "bnd")
        (encodeMP (str "bnd") [⟨[str "A: b"], str "hello"⟩, ⟨[], str "wo"⟩])
        (fun _ => 3)
      = some (([⟨[str "A: b"], str "hello"⟩, ⟨[], str "wo"⟩] : List MPart).map
          (fun p => (p.content, RErr.eof)), true) :=
  ⟨by decide, multipart_totality (str "bnd")
    [⟨[str "A: b"], str "hello"⟩, ⟨[], str "wo"⟩] (fun _ => 3)
    (by decide) (fun _ => Nat.succ_pos 2)⟩

/-- C7.  `NextPart` dispatch: with no current part nothing is closed or
consumed; with a current part, once its close succeeds and the following
CRLF is consumed without error, the remaining work is the line dispatch; the
dispatch reads exactly one line and compares it against the sliced
delimiters, which equal the literal `--B--` and `--B`: the final delimiter
returns `io.EOF`, the plain delimiter parses the new part's headers and
returns the new part, and any other line is the want-delimiter error. -/
theorem nextPart_dispatch (B : Str) (mp : MPState) :
    nextPart (mkMP B) mp none = nextPartLine (mkMP B) mp
    ∧ (∀ cp mp2 p2,
        partClose (mkMP B) mp cp = some (none, mp2, p2) →
        ∀ mp3, mpDiscardCRLF mp2 = (none, mp3) →
        nextPart (mkMP B) mp (some cp) = nextPartLine (mkMP B) mp3)
    ∧ (∀ line rest, readLine mp.s = .ok (line, rest) →
        (line = str "--" ++ B ++ str "--" →
          nextPartLine (mkMP B) mp = .eofEnd ⟨rest, mp.occurEof⟩)
        ∧ (line = str "--" ++ B → line ≠ str "--" ++ B ++ str "--" →
          nextPartLine (mkMP B) mp
            = match readHeader rest with
              | .error e => .fail e ⟨rest, mp.occurEof⟩
              | .ok (h, rest2) =>
                  .okP ⟨h, false, none⟩ ⟨rest2, mp.occurEof⟩)
        ∧ (line ≠ str "--" ++ B ++ str "--" → line ≠ str "--" ++ B →
          nextPartLine (mkMP B) mp
            = .fail .wantDelimiter ⟨rest, mp.occurEof⟩)) := by
  refine ⟨rfl, ?_, ?_⟩
  · intro cp mp2 p2 hpc mp3 hdc
    show (match partClose (mkMP B) mp cp with
      | none => NPRes.panic
      | some (some e, mp2, _) => NPRes.fail e mp2
      | some (none, mp2, _) =>
        match mpDiscardCRLF mp2 with
        | (some e, mp3) => NPRes.fail e mp3
        | (none, mp3) => nextPartLine (mkMP B) mp3) = _
    rw [hpc]
    show (match mpDiscardCRLF mp2 with
      | (some e, mp3) => NPRes.fail e mp3
      | (none, mp3) => nextPartLine (mkMP B) mp3) = _
    rw [hdc]
  · intro line rest hline
    have hdd : (mkMP B).dashBoundaryDash = str "--" ++ B ++ str "--" := by
      rw [mkMP_eq]
    have hdb : (mkMP B).dashBoundary = str "--" ++ B := by
      rw [mkMP_eq]
    refine ⟨?_, ?_, ?_⟩
    · intro h1
      unfold nextPartLine
      rw [hline]
      show (if line = (mkMP B).dashBoundaryDash then
          NPRes.eofEnd ⟨rest, mp.occurEof⟩
        else if line ≠ (mkMP B).dashBoundary then
          NPRes.fail RErr.wantDelimiter ⟨rest, mp.occurEof⟩
        else
          match readHeader rest with
          | .error e => NPRes.fail e ⟨rest, mp.occurEof⟩
          | .ok (h, rest2) =>
              NPRes.okP ⟨h, false, none⟩ ⟨rest2, mp.occurEof⟩) = _
      rw [hdd, if_pos h1]
    · intro h1 h2
      unfold nextPartLine
      rw [hline]
      show (if line = (mkMP B).dashBoundaryDash then
          NPRes.eofEnd ⟨rest, mp.occurEof⟩
        else if line ≠ (mkMP B).dashBoundary then
          NPRes.fail RErr.wantDelimiter ⟨rest, mp.occurEof⟩
        else
          match readHeader rest with
          | .error e => NPRes.fail e ⟨rest, mp.occurEof⟩
          | .ok (h, rest2) =>
              NPRes.okP ⟨h, false, none⟩ ⟨rest2, mp.occurEof⟩) = _
      rw [hdd, hdb, if_neg h2, if_neg (by simp [h1])]
    · intro h1 h2
      unfold nextPartLine
      rw [hline]
      show (if line = (mkMP B).dashBoundaryDash then
          NPRes.eofEnd ⟨rest, mp.occurEof⟩
        else if line ≠ (mkMP B).dashBoundary then
          NPRes.fail RErr.wantDelimiter ⟨rest, mp.occurEof⟩
        else
          match readHeader rest with
          | .error e => NPRes.fail e ⟨rest, mp.occurEof⟩
          | .ok (h, rest2) =>
              NPRes.okP ⟨h, false, none⟩ ⟨rest2, mp.occurEof⟩) = _
      rw [hdd, hdb, if_neg h1, if_pos h2]

/-- C7, witness: the final-delimiter line at once returns `io.EOF`. -/
theorem nextPart_dispatch_witness :
    readLine (str "--b--\r\n") = .ok (str "--b--", [])
    ∧ nextPart (mkMP (str "b")) ⟨str "--b--\r\n", false⟩ none
      = NPRes.eofEnd ⟨[], false⟩ := by
  have h := nextPart_dispatch (str "b") ⟨str "--b--\r\n", false⟩
  refine ⟨by decide, ?_⟩
  rw [h.1]
  exact (h.2.2 (str "--b--") [] (by decide)).1 (by decide)

/-- C10.  `Part.Close` is idempotent: the first close of a fresh part whose
remaining content sits before the delimiter drains exactly those bytes from
the shared source and marks the part closed; every later close returns nil
at once and consumes nothing; and every read of a closed part returns zero
bytes with `io.EOF`, changing no state. -/
theorem part_close_idempotent (B c t : Str) (bb : Bool) (hd : Header)
    (hB2 : B.length + 4 ≤ 4096)
    (hne : NoEarlyPat (str "\r\n--" ++ B) c) :
    (∃ b2, partClose (mkMP B) ⟨c ++ ((str "\r\n--" ++ B) ++ t), bb⟩
        ⟨hd, false, none⟩
      = some (none, ⟨(str "\r\n--" ++ B) ++ t, b2⟩, ⟨hd, true, some 0⟩))
    ∧ (∀ mp o, partClose (mkMP B) mp ⟨hd, true, o⟩
        = some (none, mp, ⟨hd, true, o⟩))
    ∧ (∀ mp o plen, partRead (mkMP B) mp ⟨hd, true, o⟩ plen
        = .ok [] (some .eof) mp ⟨hd, true, o⟩) := by
  have hcb : (mkMP B).crlfDashBoundary = str "\r\n--" ++ B := by
    rw [mkMP_eq]
  refine ⟨?_, fun mp o => partClose_closed _ mp hd o,
    fun mp o plen => partRead_closed _ mp hd o plen⟩
  have h := partClose_fresh (mkMP B)
    (by rw [hcb]; simp [str])
    (by rw [hcb]; simp only [List.length_append]
        have : (str "\r\n--").length = 4 := rfl
        omega)
    c t bb hd (by rw [hcb]; exact hne)
  rw [hcb] at h
  exact h

/-- C10, witness: a closed part under boundary `b` reads as zero bytes and
`io.EOF` with unchanged state. -/
theorem part_close_idempotent_witness :
    (str "b").length + 4 ≤ 4096
    ∧ NoEarlyPat (str "\r\n--" ++ str "b") (str "hi")
    ∧ partRead (mkMP (str "b")) ⟨str "x", false⟩ ⟨[], true, some 0⟩ 5
        = .ok [] (some .eof) ⟨str "x", false⟩ ⟨[], true, some 0⟩ :=
  ⟨by decide, by decide,
    (part_close_idempotent (str "b") (str "hi") [] false []
      (by decide) (by decide)).2.2 ⟨str "x", false⟩ (some 0) 5⟩
